import Mathlib

/-!
Verification of the zakosh shell against its specification.

This file gives a shallow embedding of the parts of the source that the
claims are about:

* `src/shell/parser/lexer.rs` — the lexer (`next_token`, `read_word`,
  `read_quoted_string`), modelled on `List Char`;
* `src/shell/parser/parser.rs` — the parser (`parse_command`,
  `parse_simple_command`, `parse_redirection`), modelled over the token
  stream produced by the lexer;
* `src/shell/executor/executor.rs` — `expand_variables`, together with the
  variable store of `src/shell/executor/variable.rs`;
* `src/shell/job_manager.rs` — the job table (namespace `ShellJM`);
* `src/shell/executor/job_manager.rs` — the second job-table variant
  (namespace `ExecJM`), which has `mark_suspended`.

Rust `Vec` is modelled as `List`, `HashMap` as an association list,
`usize` as `Nat`, `i32`/`u32` pids as `Int`/`Nat` (no arithmetic is ever
performed on them, so no overflow modelling is needed).  The lexer's
`char::is_whitespace` is modelled by the ASCII whitespace classifier,
with which it agrees on ASCII input; none of the lexer/parser claims
depends on which whitespace class is used.  The `char::is_alphanumeric`
test of `expand_variables` is a full Unicode class that this development
does not embed: the expansion functions take the class as an explicit
parameter, every theorem about them constrains that parameter only at
the characters the run actually consults, and `asciiAlnum` is the
(correct) ASCII fragment of the class — below code point 128 Rust's
`is_alphanumeric` holds exactly on `[A-Za-z0-9]`.
-/

namespace Zakosh

/-! ## Generic list helpers -/

theorem dropWhile_head_false {α : Type} (p : α → Bool) :
    ∀ (l : List α) (c : α) (rest : List α), l.dropWhile p = c :: rest → p c = false := by
  intro l
  induction l with
  | nil => intro c rest h; simp [List.dropWhile] at h
  | cons a l ih =>
    intro c rest h
    by_cases ha : p a
    · rw [List.dropWhile_cons_of_pos ha] at h
      exact ih c rest h
    · rw [List.dropWhile_cons_of_neg ha] at h
      cases h
      simpa using ha

theorem countP_eraseIdx {α : Type} (p : α → Bool) :
    ∀ (l : List α) (pos : Nat) (x : α), l[pos]? = some x →
      (l.eraseIdx pos).countP p + (if p x then 1 else 0) = l.countP p := by
  intro l
  induction l with
  | nil => intro pos x h; simp at h
  | cons a l ih =>
    intro pos x h
    cases pos with
    | zero =>
      simp at h
      subst h
      simp [List.eraseIdx, List.countP_cons]
    | succ n =>
      simp at h
      have := ih n x h
      simp [List.eraseIdx, List.countP_cons]
      omega

theorem countP_set {α : Type} (p : α → Bool) :
    ∀ (l : List α) (pos : Nat) (x y : α), l[pos]? = some x →
      (l.set pos y).countP p + (if p x then 1 else 0) =
        l.countP p + (if p y then 1 else 0) := by
  intro l
  induction l with
  | nil => intro pos x y h; simp at h
  | cons a l ih =>
    intro pos x y h
    cases pos with
    | zero =>
      simp at h
      subst h
      simp [List.set, List.countP_cons]
      omega
    | succ n =>
      simp at h
      have := ih n x y h
      simp [List.set, List.countP_cons]
      omega

theorem map_set_eq {α β : Type} (g : α → β) :
    ∀ (l : List α) (pos : Nat) (x y : α), l[pos]? = some x → g y = g x →
      (l.set pos y).map g = l.map g := by
  intro l
  induction l with
  | nil => intro pos x y h _; simp at h
  | cons a l ih =>
    intro pos x y h hg
    cases pos with
    | zero =>
      simp at h
      subst h
      simp [List.set, hg]
    | succ n =>
      simp at h
      simp [List.set, ih n x y h hg]

theorem nodup_countP_le_one {α β : Type} [DecidableEq β] (g : α → β) (a : β) :
    ∀ (l : List α), (l.map g).Nodup → l.countP (fun x => g x = a) ≤ 1 := by
  intro l
  induction l with
  | nil => intro _; simp
  | cons x l ih =>
    intro h
    simp only [List.map_cons, List.nodup_cons] at h
    by_cases hx : g x = a
    · have hz : l.countP (fun y => g y = a) = 0 := by
        rw [List.countP_eq_zero]
        intro y hy
        simp only [decide_eq_true_eq]
        intro hya
        exact h.1 (by rw [hx.trans hya.symm]; exact List.mem_map_of_mem g hy)
      simp [List.countP_cons, hx, hz]
    · have := ih h.2
      simp [List.countP_cons, hx]
      omega

/-! ## Lexer (src/shell/parser/lexer.rs) -/

inductive RedirectOp
  | input
  | output
  | append
deriving Repr, DecidableEq

inductive Token
  | word (s : String)
  | pipe
  | redirect (op : RedirectOp)
  | background
  | semi
  | eof
deriving Repr, DecidableEq

/-- The single-quote character, written via its code point. -/
def squoteChar : Char := Char.ofNat 39

/-- The character class on which `Lexer::read_word` stops:
whitespace or one of `";<>|&"`. -/
def wordBreakChar (c : Char) : Bool :=
  c.isWhitespace || c = ';' || c = '<' || c = '>' || c = '|' || c = '&'

/-- Body of `Lexer::read_word`: the maximal run of non-break characters.
The `while peek { push(read_char) }` loop is the `takeWhile`/`dropWhile`
split of the input. -/
def readWord (s : List Char) : Token × List Char :=
  (Token.word (String.mk (s.takeWhile (fun c => !wordBreakChar c))),
   s.dropWhile (fun c => !wordBreakChar c))

/-- Loop body of `Lexer::read_quoted_string`, after the opening quote `q`
has been consumed.  The boolean `escaped` state of the source is encoded
by matching two characters at once on a backslash. -/
def readQuotedAux (q : Char) : List Char → List Char × List Char
  | [] => ([], [])
  | c :: s =>
    if c = '\\' then
      match s with
      | [] => ([], [])
      | c2 :: s2 =>
        let p := readQuotedAux q s2
        (c2 :: p.1, p.2)
    else if c = q then ([], s)
    else
      let p := readQuotedAux q s
      (c :: p.1, p.2)

/-- `Lexer::read_quoted_string`: consume the opening quote, then scan to
the matching quote. -/
def readQuotedString (s : List Char) : Token × List Char :=
  match s with
  | [] => (Token.word "", [])
  | q :: rest =>
    let p := readQuotedAux q rest
    (Token.word (String.mk p.1), p.2)

/-- `Lexer::next_token`: skip whitespace, then dispatch on the first
character. -/
def nextToken (input : List Char) : Token × List Char :=
  let s := input.dropWhile Char.isWhitespace
  match s with
  | [] => (Token.eof, [])
  | c :: rest =>
    if c = '|' then (Token.pipe, rest)
    else if c = ';' then (Token.semi, rest)
    else if c = '&' then (Token.background, rest)
    else if c = '<' then (Token.redirect RedirectOp.input, rest)
    else if c = '>' then
      match rest with
      | c2 :: rest2 =>
        if c2 = '>' then (Token.redirect RedirectOp.append, rest2)
        else (Token.redirect RedirectOp.output, rest)
      | [] => (Token.redirect RedirectOp.output, rest)
    else if c = '"' then readQuotedString s
    else if c = squoteChar then readQuotedString s
    else readWord s

theorem readQuotedAux_len (q : Char) :
    ∀ (s : List Char), (readQuotedAux q s).2.length ≤ s.length := by
  intro s
  induction s using readQuotedAux.induct q with
  | case1 => simp [readQuotedAux]
  | case2 => simp [readQuotedAux]
  | case3 c2 s2 ih =>
    simp [readQuotedAux]
    omega
  | case4 s2 h =>
    simp [readQuotedAux.eq_def, h]
  | case5 c2 s2 h hq ih =>
    rw [readQuotedAux.eq_def]
    simp only [h, hq, if_false]
    simp
    omega

theorem nextToken_spec (s : List Char) :
    (nextToken s).2.length ≤ s.length ∧
    ((nextToken s).1 ≠ Token.eof → (nextToken s).2.length < s.length) := by
  have hdw : (s.dropWhile Char.isWhitespace).length ≤ s.length :=
    (List.dropWhile_sublist Char.isWhitespace).length_le
  unfold nextToken
  cases hs : s.dropWhile Char.isWhitespace with
  | nil => simp
  | cons c rest =>
    rw [hs] at hdw
    have hc : c.isWhitespace = false := dropWhile_head_false _ s c rest hs
    simp only [List.length_cons] at hdw
    dsimp only
    by_cases h1 : c = '|'
    · rw [if_pos h1]; simp; omega
    by_cases h2 : c = ';'
    · rw [if_neg h1, if_pos h2]; simp; omega
    by_cases h3 : c = '&'
    · rw [if_neg h1, if_neg h2, if_pos h3]; simp; omega
    by_cases h4 : c = '<'
    · rw [if_neg h1, if_neg h2, if_neg h3, if_pos h4]; simp; omega
    by_cases h5 : c = '>'
    · rw [if_neg h1, if_neg h2, if_neg h3, if_neg h4, if_pos h5]
      cases rest with
      | nil => simp; omega
      | cons c2 rest2 =>
        simp only [List.length_cons] at hdw
        dsimp only
        by_cases h6 : c2 = '>'
        · rw [if_pos h6]; simp; omega
        · rw [if_neg h6]; simp; omega
    by_cases h7 : c = '"'
    · have hq := readQuotedAux_len c rest
      rw [if_neg h1, if_neg h2, if_neg h3, if_neg h4, if_neg h5, if_pos h7]
      simp [readQuotedString]
      omega
    by_cases h8 : c = squoteChar
    · have hq := readQuotedAux_len c rest
      rw [if_neg h1, if_neg h2, if_neg h3, if_neg h4, if_neg h5, if_neg h7, if_pos h8]
      simp [readQuotedString]
      omega
    · have hbreak : wordBreakChar c = false := by
        simp [wordBreakChar, hc, h1, h2, h3, h4, h5]
      have hdrop : ((c :: rest).dropWhile (fun x => !wordBreakChar x)).length ≤ rest.length := by
        rw [List.dropWhile_cons_of_pos (by simp [hbreak])]
        exact (List.dropWhile_sublist _).length_le
      rw [if_neg h1, if_neg h2, if_neg h3, if_neg h4, if_neg h5, if_neg h7, if_neg h8]
      simp [readWord]
      omega

theorem nextToken_len (s : List Char) : (nextToken s).2.length ≤ s.length :=
  (nextToken_spec s).1

theorem nextToken_progress (s : List Char) (h : (nextToken s).1 ≠ Token.eof) :
    (nextToken s).2.length < s.length :=
  (nextToken_spec s).2 h

/-- Repeated calls to `next_token` until `EOF`, collecting the tokens.
This is how `Parser::new`/`Parser::next_token` consume the lexer. -/
def lexAll (s : List Char) : List Token :=
  if h : (nextToken s).1 = Token.eof then []
  else (nextToken s).1 :: lexAll (nextToken s).2
termination_by s.length
decreasing_by exact nextToken_progress s h

/-! ## Parser (src/shell/parser/parser.rs)

The Rust parser holds a current token and pulls further tokens from the
lexer on demand; since the lexer is a pure function of the remaining
input, this is equivalent to parsing the token list `lexAll input`, with
the empty list playing the role of the `EOF` current token. -/

structure Redirection where
  operator : RedirectOp
  filename : String
deriving Repr, DecidableEq

structure Command where
  program : String
  arguments : List String
  redirections : List Redirection
  background : Bool
deriving Repr, DecidableEq

/-- `#[derive(Default)]` on `Command`. -/
instance : Inhabited Command :=
  ⟨{ program := "", arguments := [], redirections := [], background := false }⟩

inductive Node
  | command (c : Command)
  | pipeline (cs : List Command)
deriving Repr, DecidableEq
/-- The argument/redirection loop of `Parser::parse_simple_command`
(the `loop` after the program name has been read), carried out on the
partially built command `c`.  `Parser::parse_redirection` — skip the
operator, then require a word token as filename — is inlined as the inner
match on `rest`. -/
def parseSimpleCommandArgs (c : Command) (ts : List Token) :
    Except String (Command × List Token) :=
  match ts with
  | [] => Except.ok (c, [])
  | Token.eof :: _ => Except.ok (c, ts)
  | Token.pipe :: _ => Except.ok (c, ts)
  | Token.semi :: _ => Except.ok (c, ts)
  | Token.background :: rest => Except.ok ({ c with background := true }, rest)
  | Token.redirect op :: rest =>
    match rest with
    | Token.word f :: rest2 =>
      parseSimpleCommandArgs
        { c with redirections := c.redirections ++ [{ operator := op, filename := f }] } rest2
    | _ => Except.error "Expected filename after redirection operator"
  | Token.word w :: rest =>
    parseSimpleCommandArgs { c with arguments := c.arguments ++ [w] } rest

theorem parseSimpleCommandArgs_len :
    ∀ (c : Command) (ts : List Token) (c2 : Command) (rest : List Token),
      parseSimpleCommandArgs c ts = Except.ok (c2, rest) → rest.length ≤ ts.length := by
  intro c ts
  induction c, ts using parseSimpleCommandArgs.induct with
  | case1 c =>
    intro c2 rest h
    simp [parseSimpleCommandArgs] at h
    simp [← h.2]
  | case2 c tail =>
    intro c2 rest h
    simp [parseSimpleCommandArgs] at h
    simp [← h.2]
  | case3 c tail =>
    intro c2 rest h
    simp [parseSimpleCommandArgs] at h
    simp [← h.2]
  | case4 c tail =>
    intro c2 rest h
    simp [parseSimpleCommandArgs] at h
    simp [← h.2]
  | case5 c rest' =>
    intro c2 rest h
    simp [parseSimpleCommandArgs] at h
    rw [← h.2]
    simp
  | case6 c op f rest2 ih =>
    intro c2 rest h
    simp only [parseSimpleCommandArgs] at h
    have h2 := ih c2 rest h
    simp only [List.length_cons]
    omega
  | case7 c op rest' hne =>
    intro c2 rest h
    cases rest' with
    | nil => simp [parseSimpleCommandArgs] at h
    | cons t r2 =>
      cases t with
      | word f => exact absurd rfl (hne f r2)
      | pipe => simp [parseSimpleCommandArgs] at h
      | redirect op2 => simp [parseSimpleCommandArgs] at h
      | background => simp [parseSimpleCommandArgs] at h
      | semi => simp [parseSimpleCommandArgs] at h
      | eof => simp [parseSimpleCommandArgs] at h
  | case8 c w rest' ih =>
    intro c2 rest h
    simp only [parseSimpleCommandArgs] at h
    have h2 := ih c2 rest h
    simp only [List.length_cons]
    omega

/-- `Parser::parse_simple_command`: the current token must be a word,
which becomes the program name; then the argument/redirection loop runs. -/
def parseSimpleCommand (ts : List Token) : Except String (Command × List Token) :=
  match ts with
  | Token.word w :: rest =>
    parseSimpleCommandArgs
      { program := w, arguments := [], redirections := [], background := false } rest
  | _ => Except.error "Expected command name"

theorem parseSimpleCommand_len (ts : List Token) (c : Command) (rest : List Token)
    (h : parseSimpleCommand ts = Except.ok (c, rest)) : rest.length < ts.length := by
  cases ts with
  | nil => simp [parseSimpleCommand] at h
  | cons t ts' =>
    cases t with
    | word w =>
      simp only [parseSimpleCommand] at h
      have := parseSimpleCommandArgs_len _ ts' c rest h
      simp only [List.length_cons]
      omega
    | pipe => simp [parseSimpleCommand] at h
    | redirect op => simp [parseSimpleCommand] at h
    | background => simp [parseSimpleCommand] at h
    | semi => simp [parseSimpleCommand] at h
    | eof => simp [parseSimpleCommand] at h

/-- The `while self.current_token != Token::EOF` loop of
`Parser::parse_command`, accumulating the parsed simple commands.  On `|`
the loop continues with the next command; on `;` it consumes the
semicolon and stops; on anything else it stops. -/
def parseCommandLoop (ts : List Token) (acc : List Command) :
    Except String (List Command) :=
  match ts with
  | [] => Except.ok acc
  | Token.eof :: _ => Except.ok acc
  | t :: ts2 =>
    match h : parseSimpleCommand (t :: ts2) with
    | Except.error e => Except.error e
    | Except.ok (cmd, rest) =>
      match rest with
      | Token.pipe :: rest2 => parseCommandLoop rest2 (acc ++ [cmd])
      | Token.semi :: _ => Except.ok (acc ++ [cmd])
      | _ => Except.ok (acc ++ [cmd])
termination_by ts.length
decreasing_by
  have := parseSimpleCommand_len _ cmd (Token.pipe :: rest2) h
  simp only [List.length_cons] at this ⊢
  omega

/-- The final step of `Parser::parse_command`: one collected command is
returned bare (`commands.pop().unwrap_or_default()`), any other number
becomes a pipeline. -/
def commandsToNode (cmds : List Command) : Node :=
  if cmds.length = 1 then Node.command (cmds.getLastD default)
  else Node.pipeline cmds

/-- `Parser::parse_command` on a token stream. -/
def parseCommandTokens (ts : List Token) : Except String Node :=
  match parseCommandLoop ts [] with
  | Except.error e => Except.error e
  | Except.ok cmds => Except.ok (commandsToNode cmds)

/-- `Parser::new(input)` followed by `parse_command()`. -/
def parse_command (input : String) : Except String Node :=
  parseCommandTokens (lexAll input.data)

/-! ## Variable store and expansion
(src/shell/executor/variable.rs, src/shell/executor/executor.rs) -/

/-- `Variable`: the shell-local variable store.  The Rust `HashMap` is
modelled as an association list; `get` is lookup with `""` as default. -/
structure Variable where
  local_vars : List (String × String)

/-- `Variable::get`: the stored value, or `""` when unbound. -/
def Variable.get (v : Variable) (name : String) : String :=
  ((v.local_vars.find? (fun p => p.1 = name)).map Prod.snd).getD ""

/-- The ASCII fragment of Rust's `char::is_alphanumeric`: below code
point 128 the Unicode class holds exactly on `[A-Za-z0-9]`. -/
def asciiAlnum (c : Char) : Bool :=
  ('A' ≤ c && c ≤ 'Z') || ('a' ≤ c && c ≤ 'z') || ('0' ≤ c && c ≤ '9')

/-- The character test of the inner collection loop of
`Executor::expand_variables`: `next_char.is_alphanumeric() || next_char == '_'`.
The source's `is_alphanumeric` is the full Unicode class, which this
development does not embed: it enters as the parameter `is_alnum`, and
every theorem constrains `is_alnum` only at the characters the run
actually consults (on ASCII it is `asciiAlnum`). -/
def rustIdentChar (is_alnum : Char → Bool) (c : Char) : Bool :=
  is_alnum c || c = '_'

/-- The inner `while` of `Executor::expand_variables` that collects
`var_name`: peel off the maximal run of identifier characters. -/
def collectVarName (is_alnum : Char → Bool) : List Char → List Char × List Char
  | [] => ([], [])
  | c :: s =>
    if rustIdentChar is_alnum c then
      let p := collectVarName is_alnum s
      (c :: p.1, p.2)
    else ([], c :: s)

theorem collectVarName_len (f : Char → Bool) :
    ∀ (s : List Char), (collectVarName f s).2.length ≤ s.length := by
  intro s
  induction s with
  | nil => simp [collectVarName]
  | cons c s ih =>
    by_cases h : rustIdentChar f c
    · simp [collectVarName, h]
      omega
    · simp [collectVarName, if_neg h]

/-- `Executor::expand_variables`, over the alphanumeric class `is_alnum`.
A `$` with at least one following character starts variable collection; an
empty collected name contributes nothing (the `$` is dropped); otherwise
the store value is substituted.  All other characters are copied. -/
def expandVariables (is_alnum : Char → Bool) (v : Variable) (l : List Char) : List Char :=
  match l with
  | [] => []
  | c :: s =>
    if c = '$' ∧ s ≠ [] then
      let p := collectVarName is_alnum s
      (if p.1 ≠ [] then (v.get (String.mk p.1)).data else []) ++
        expandVariables is_alnum v p.2
    else c :: expandVariables is_alnum v s
termination_by l.length
decreasing_by
  · simp only [List.length_cons]
    exact Nat.lt_succ_of_le (collectVarName_len _ _)
  · simp

/-! ## Job table, shell variant (src/shell/job_manager.rs) -/

namespace ShellJM

inductive JobStatus
  | done
  | killed
  | continued
  | stopped
deriving Repr, DecidableEq

structure Job where
  gid : Int
  pid : Int
  index : Nat
  command : String
  status : JobStatus
  is_bg : Bool
  is_current : Bool
  is_previous : Bool
deriving Repr, DecidableEq

/-- `Job::new`. -/
def Job.new (gid pid : Int) (index : Nat) (command : String) (status : JobStatus) : Job :=
  { gid, pid, index, command, status,
    is_bg := false, is_current := false, is_previous := false }

structure JobManager where
  jobs : List Job
deriving Repr, DecidableEq

theorem job_index_le_foldr_max :
    ∀ (l : List Job) (x : Job), x ∈ l →
      x.index ≤ l.foldr (fun j m => max j.index m) 0 := by
  intro l
  induction l with
  | nil => intro x hx; simp at hx
  | cons a l ih =>
    intro x hx
    rcases List.mem_cons.mp hx with h1 | h2
    · subst h1
      simp
    · have := ih x h2
      simp
      omega

/-- The `while` loop of `JobManager::find_available_index`, starting the
scan at candidate `i`. -/
def findAvailableIndexFrom (jobs : List Job) (i : Nat) : Nat :=
  if jobs.any (fun j => j.index = i) then findAvailableIndexFrom jobs (i + 1) else i
termination_by (jobs.foldr (fun j m => max j.index m) 0) + 1 - i
decreasing_by
  rename_i h
  simp only [List.any_eq_true, decide_eq_true_eq] at h
  obtain ⟨j, hj, hidx⟩ := h
  have hle := job_index_le_foldr_max jobs j hj
  omega

/-- `JobManager::find_available_index`: the scan starts at 1. -/
def find_available_index (m : JobManager) : Nat :=
  findAvailableIndexFrom m.jobs 1

/-- `JobManager::update_marks`. -/
def update_marks (m : JobManager) (current_job_index : Nat) : JobManager :=
  ⟨m.jobs.map (fun j =>
    if j.index = current_job_index then { j with is_current := true, is_previous := false }
    else if j.is_current then { j with is_current := false, is_previous := true }
    else { j with is_previous := false })⟩

/-- `JobManager::add_job`: pick the index, demote the current job, push
the new job marked current, then run `update_marks`. -/
def add_job (m : JobManager) (gid pid : Int) (command : String) : JobManager :=
  let index := find_available_index m
  let demoted := m.jobs.map (fun j =>
    if j.is_current then { j with is_current := false, is_previous := true }
    else { j with is_previous := false })
  let job := { Job.new gid pid index command JobStatus.continued with is_current := true }
  update_marks ⟨demoted ++ [job]⟩ index

/-- The `iter_mut().find(|job| job.is_previous)` mutation inside
`JobManager::remove_job`: promote the first job marked previous. -/
def promoteFirstPrevious : List Job → List Job
  | [] => []
  | j :: rest =>
    if j.is_previous then { j with is_current := true, is_previous := false } :: rest
    else j :: promoteFirstPrevious rest

/-- The `self.jobs[last_idx].is_current = true` mutation inside
`JobManager::remove_job`: mark the last job current. -/
def setLastCurrent : List Job → List Job
  | [] => []
  | [j] => [{ j with is_current := true }]
  | j :: rest => j :: setLastCurrent rest

/-- `JobManager::remove_job`: remove the first job with the given pid;
if it was current, promote the previous job, or failing that the job in
the last position.  The `gid` argument is unused in the source. -/
def remove_job (m : JobManager) (gid pid : Int) : Option Job × JobManager :=
  match m.jobs.findIdx? (fun j => j.pid = pid) with
  | none => (none, m)
  | some pos =>
    match m.jobs[pos]? with
    | none => (none, m)
    | some current_job =>
      let jobs1 := m.jobs.eraseIdx pos
      if current_job.is_current ∧ jobs1 ≠ [] then
        if jobs1.any (fun j => j.is_previous) then
          (some current_job, ⟨promoteFirstPrevious jobs1⟩)
        else
          (some current_job, ⟨setLastCurrent jobs1⟩)
      else (some current_job, ⟨jobs1⟩)

/-- `JobManager::fg`: resolve by index or current mark, set the status to
`Continued`, re-mark, and return the updated job. -/
def fg (m : JobManager) (index : Option Nat) : Option Job × JobManager :=
  let pos? : Option Nat := match index with
    | some idx => m.jobs.findIdx? (fun j => j.index = idx)
    | none => m.jobs.findIdx? (fun j => j.is_current)
  match pos? with
  | none => (none, m)
  | some pos =>
    match m.jobs[pos]? with
    | none => (none, m)
    | some j =>
      let m2 := update_marks ⟨m.jobs.set pos { j with status := JobStatus.continued }⟩ j.index
      (m2.jobs[pos]?, m2)

/-- `JobManager::bg`: like `fg` but without re-marking. -/
def bg (m : JobManager) (index : Option Nat) : Option Job × JobManager :=
  let pos? : Option Nat := match index with
    | some idx => m.jobs.findIdx? (fun j => j.index = idx)
    | none => m.jobs.findIdx? (fun j => j.is_current)
  match pos? with
  | none => (none, m)
  | some pos =>
    match m.jobs[pos]? with
    | none => (none, m)
    | some j =>
      let m2 : JobManager := ⟨m.jobs.set pos { j with status := JobStatus.continued }⟩
      (m2.jobs[pos]?, m2)

end ShellJM

/-! ## Job table, executor variant (src/shell/executor/job_manager.rs) -/

namespace ExecJM

inductive JobStatus
  | continued
  | suspended
deriving Repr, DecidableEq

structure Job where
  pid : Nat
  index : Nat
  command : String
  status : JobStatus
  is_current : Bool
  is_previous : Bool
deriving Repr, DecidableEq

/-- `Job::new`. -/
def Job.new (pid : Nat) (index : Nat) (command : String) (status : JobStatus) : Job :=
  { pid, index, command, status, is_current := false, is_previous := false }

structure JobManager where
  jobs : List Job
deriving Repr, DecidableEq

/-- `JobManager::new`. -/
def JobManager.empty : JobManager := ⟨[]⟩

theorem exec_job_index_le_foldr_max :
    ∀ (l : List Job) (x : Job), x ∈ l →
      x.index ≤ l.foldr (fun j m => max j.index m) 0 := by
  intro l
  induction l with
  | nil => intro x hx; simp at hx
  | cons a l ih =>
    intro x hx
    rcases List.mem_cons.mp hx with h1 | h2
    · subst h1
      simp
    · have := ih x h2
      simp
      omega

/-- The `while` loop of `JobManager::find_available_index`. -/
def findAvailableIndexFrom (jobs : List Job) (i : Nat) : Nat :=
  if jobs.any (fun j => j.index = i) then findAvailableIndexFrom jobs (i + 1) else i
termination_by (jobs.foldr (fun j m => max j.index m) 0) + 1 - i
decreasing_by
  rename_i h
  simp only [List.any_eq_true, decide_eq_true_eq] at h
  obtain ⟨j, hj, hidx⟩ := h
  have hle := exec_job_index_le_foldr_max jobs j hj
  omega

/-- `JobManager::find_available_index`. -/
def find_available_index (m : JobManager) : Nat :=
  findAvailableIndexFrom m.jobs 1

/-- `JobManager::update_marks`. -/
def update_marks (m : JobManager) (current_job_index : Nat) : JobManager :=
  ⟨m.jobs.map (fun j =>
    if j.index = current_job_index then { j with is_current := true, is_previous := false }
    else if j.is_current then { j with is_current := false, is_previous := true }
    else { j with is_previous := false })⟩

/-- `JobManager::add_job`: in this variant the demote pass runs first and
the index is chosen afterwards. -/
def add_job (m : JobManager) (pid : Nat) (command : String) : JobManager :=
  let demoted : JobManager := ⟨m.jobs.map (fun j =>
    if j.is_current then { j with is_current := false, is_previous := true }
    else { j with is_previous := false })⟩
  let index := find_available_index demoted
  let job := { Job.new pid index command JobStatus.continued with is_current := true }
  update_marks ⟨demoted.jobs ++ [job]⟩ index

/-- First-previous promotion inside `JobManager::remove_job`. -/
def promoteFirstPrevious : List Job → List Job
  | [] => []
  | j :: rest =>
    if j.is_previous then { j with is_current := true, is_previous := false } :: rest
    else j :: promoteFirstPrevious rest

/-- Last-position promotion inside `JobManager::remove_job`. -/
def setLastCurrent : List Job → List Job
  | [] => []
  | [j] => [{ j with is_current := true }]
  | j :: rest => j :: setLastCurrent rest

/-- `JobManager::remove_job` (this variant returns nothing). -/
def remove_job (m : JobManager) (pid : Nat) : JobManager :=
  match m.jobs.findIdx? (fun j => j.pid = pid) with
  | none => m
  | some pos =>
    match m.jobs[pos]? with
    | none => m
    | some current_job =>
      let jobs1 := m.jobs.eraseIdx pos
      if current_job.is_current ∧ jobs1 ≠ [] then
        if jobs1.any (fun j => j.is_previous) then ⟨promoteFirstPrevious jobs1⟩
        else ⟨setLastCurrent jobs1⟩
      else ⟨jobs1⟩

/-- `JobManager::fg`. -/
def fg (m : JobManager) (index : Option Nat) : Option Job × JobManager :=
  let pos? : Option Nat := match index with
    | some idx => m.jobs.findIdx? (fun j => j.index = idx)
    | none => m.jobs.findIdx? (fun j => j.is_current)
  match pos? with
  | none => (none, m)
  | some pos =>
    match m.jobs[pos]? with
    | none => (none, m)
    | some j =>
      let m2 := update_marks ⟨m.jobs.set pos { j with status := JobStatus.continued }⟩ j.index
      (m2.jobs[pos]?, m2)

/-- `JobManager::bg`: in this variant it takes a mandatory index and also
re-marks. -/
def bg (m : JobManager) (index : Nat) : Option Job × JobManager :=
  match m.jobs.findIdx? (fun j => j.index = index) with
  | none => (none, m)
  | some pos =>
    match m.jobs[pos]? with
    | none => (none, m)
    | some j =>
      let m2 := update_marks ⟨m.jobs.set pos { j with status := JobStatus.continued }⟩ j.index
      (m2.jobs[pos]?, m2)

/-- `JobManager::mark_suspended`: set the first job with this pid to
`Suspended`. -/
def mark_suspended (m : JobManager) (pid : Nat) : Option Job × JobManager :=
  match m.jobs.findIdx? (fun j => j.pid = pid) with
  | none => (none, m)
  | some pos =>
    match m.jobs[pos]? with
    | none => (none, m)
    | some j =>
      let j2 := { j with status := JobStatus.suspended }
      (some j2, ⟨m.jobs.set pos j2⟩)

/-- One job-table operation, for stating reachability invariants. -/
inductive Op
  | add (pid : Nat) (command : String)
  | remove (pid : Nat)
  | fgOp (index : Option Nat)
  | bgOp (index : Nat)
  | suspend (pid : Nat)
deriving Repr, DecidableEq

/-- Apply one operation to the job table. -/
def applyOp (m : JobManager) : Op → JobManager
  | Op.add pid command => add_job m pid command
  | Op.remove pid => remove_job m pid
  | Op.fgOp index => (fg m index).2
  | Op.bgOp index => (bg m index).2
  | Op.suspend pid => (mark_suspended m pid).2

/-- Apply a sequence of operations starting from a given table. -/
def applyOps (m : JobManager) (ops : List Op) : JobManager :=
  ops.foldl applyOp m

end ExecJM

/-! ## Claim theorems -/

theorem lexAll_length (s : List Char) : (lexAll s).length ≤ s.length := by
  induction s using lexAll.induct with
  | case1 s h =>
    rw [lexAll]
    simp [h]
  | case2 s h ih =>
    rw [lexAll, dif_neg h]
    simp only [List.length_cons]
    have := nextToken_progress s h
    omega

/-- C9: `next_token` is a total function of the remaining input (each
call terminates); a call that does not return `EOF` consumes at least one
character, so iterating `next_token` reaches `EOF` after at most
`length input` calls (`lexAll` collects at most that many tokens); and on
exhausted input `next_token` returns `EOF`. -/
theorem C9_next_token_progress :
    (∀ s : List Char, (nextToken s).2.length ≤ s.length) ∧
    (∀ s : List Char, (nextToken s).1 ≠ Token.eof → (nextToken s).2.length < s.length) ∧
    nextToken [] = (Token.eof, []) ∧
    (∀ s : List Char, (lexAll s).length ≤ s.length) := by
  refine ⟨fun s => (nextToken_spec s).1, fun s => (nextToken_spec s).2, rfl, lexAll_length⟩

theorem C9_next_token_progress_witness :
    (nextToken ['l', 's']).2.length < 2 :=
  C9_next_token_progress.2.1 ['l', 's'] (by decide)

theorem readQuotedAux_closed (q : Char) (hq : q ≠ '\\') :
    ∀ (body rest : List Char), (∀ c ∈ body, c ≠ q ∧ c ≠ '\\') →
      readQuotedAux q (body ++ q :: rest) = (body, rest) := by
  intro body
  induction body with
  | nil =>
    intro rest _
    rw [List.nil_append, readQuotedAux.eq_def]
    dsimp only
    rw [if_neg hq, if_pos rfl]
  | cons c b ih =>
    intro rest h
    have hc := h c (by simp)
    rw [List.cons_append, readQuotedAux.eq_def]
    dsimp only
    rw [if_neg hc.2, if_neg hc.1, ih rest (fun c2 hc2 => h c2 (by simp [hc2]))]

theorem readQuotedAux_unterminated (q : Char) :
    ∀ (body : List Char), (∀ c ∈ body, c ≠ q ∧ c ≠ '\\') →
      readQuotedAux q body = (body, []) := by
  intro body
  induction body with
  | nil =>
    intro _
    rw [readQuotedAux.eq_def]
  | cons c b ih =>
    intro h
    have hc := h c (by simp)
    rw [readQuotedAux.eq_def]
    dsimp only
    rw [if_neg hc.2, if_neg hc.1, ih (fun c2 hc2 => h c2 (by simp [hc2]))]

theorem nextToken_quote_start (q : Char) (hq : q = '"' ∨ q = squoteChar) (s : List Char) :
    nextToken (q :: s) =
      (Token.word (String.mk (readQuotedAux q s).1), (readQuotedAux q s).2) := by
  rcases hq with h | h <;> subst h <;>
    simp [nextToken, squoteChar, readQuotedString, List.dropWhile]

/-- Example input `"a b" 'c d'`, built from characters so that the quote
characters are explicit. -/
def quotedExampleInput : List Char :=
  '"' :: 'a' :: ' ' :: 'b' :: '"' :: ' ' :: squoteChar :: 'c' :: ' ' :: 'd' :: squoteChar :: []

/-- C8: a token-initial quoted string (`"` or `'`) lexes verbatim up to
the matching quote into exactly one `Word` token; a backslash inside it
takes the following character literally and is itself removed; an
unterminated quote consumes to the end of the input, still yielding a
`Word` token (the lexer never fails); and the example `"a b" 'c d'` lexes
to exactly the two `Word` tokens `a b` and `c d`. -/
theorem C8_quoted_strings :
    (∀ (q : Char), (q = '"' ∨ q = squoteChar) →
      ∀ (body rest : List Char), (∀ c ∈ body, c ≠ q ∧ c ≠ '\\') →
        nextToken (q :: (body ++ q :: rest)) = (Token.word (String.mk body), rest)) ∧
    (∀ (q c : Char) (s : List Char),
      readQuotedAux q ('\\' :: c :: s) =
        (c :: (readQuotedAux q s).1, (readQuotedAux q s).2)) ∧
    (∀ (q : Char), (q = '"' ∨ q = squoteChar) →
      ∀ (body : List Char), (∀ c ∈ body, c ≠ q ∧ c ≠ '\\') →
        nextToken (q :: body) = (Token.word (String.mk body), [])) ∧
    lexAll quotedExampleInput = [Token.word "a b", Token.word "c d"] := by
  have hnb : ∀ (q : Char), q = '"' ∨ q = squoteChar → q ≠ '\\' := by
    intro q hq
    rcases hq with h | h <;> subst h <;> simp [squoteChar]
  refine ⟨?_, ?_, ?_, ?_⟩
  · intro q hq body rest h
    rw [nextToken_quote_start q hq, readQuotedAux_closed q (hnb q hq) body rest h]
  · intro q c s
    simp [readQuotedAux]
  · intro q hq body h
    rw [nextToken_quote_start q hq, readQuotedAux_unterminated q body h]
  · simp [lexAll, nextToken, readQuotedString, readQuotedAux, squoteChar, readWord,
      wordBreakChar, quotedExampleInput, List.dropWhile]

theorem C8_quoted_strings_witness :
    nextToken ('"' :: (['a', ' ', 'b'] ++ '"' :: [])) =
      (Token.word (String.mk ['a', ' ', 'b']), []) :=
  C8_quoted_strings.1 '"' (by decide) ['a', ' ', 'b'] [] (by decide)

/-- The spec's identifier class `[A-Za-z0-9_]`. -/
def specIdentChar (c : Char) : Bool :=
  ('A' ≤ c && c ≤ 'Z') || ('a' ≤ c && c ≤ 'z') || ('0' ≤ c && c ≤ '9') || c = '_'

theorem rustIdentChar_ascii_eq_spec (c : Char) :
    rustIdentChar asciiAlnum c = specIdentChar c := by
  simp [rustIdentChar, asciiAlnum, specIdentChar, Bool.or_assoc]

theorem takeWhile_congr_mem {α : Type} (f g : α → Bool) :
    ∀ (l : List α), (∀ a ∈ l, f a = g a) →
      l.takeWhile f = l.takeWhile g ∧ l.dropWhile f = l.dropWhile g := by
  intro l
  induction l with
  | nil => intro _; exact ⟨rfl, rfl⟩
  | cons c l ih =>
    intro h
    have hc : f c = g c := h c (by simp)
    obtain ⟨ih1, ih2⟩ := ih (fun a ha => h a (by simp [ha]))
    cases hfc : f c with
    | true =>
      rw [List.takeWhile_cons_of_pos hfc, List.takeWhile_cons_of_pos (by rw [← hc]; exact hfc),
        List.dropWhile_cons_of_pos hfc, List.dropWhile_cons_of_pos (by rw [← hc]; exact hfc)]
      exact ⟨by rw [ih1], ih2⟩
    | false =>
      rw [List.takeWhile_cons_of_neg (by simp [hfc]),
        List.takeWhile_cons_of_neg (by simp [← hc, hfc]),
        List.dropWhile_cons_of_neg (by simp [hfc]),
        List.dropWhile_cons_of_neg (by simp [← hc, hfc])]
      exact ⟨rfl, rfl⟩

theorem rustIdentChar_agree (f : Char → Bool)
    (hagree : ∀ d, d.toNat < 128 → f d = asciiAlnum d) (c : Char) (h : c.toNat < 128) :
    rustIdentChar f c = specIdentChar c := by
  have h1 : rustIdentChar f c = rustIdentChar asciiAlnum c := by
    simp [rustIdentChar, hagree c h]
  rw [h1, rustIdentChar_ascii_eq_spec]

theorem collectVarName_eq_span (f : Char → Bool) (s : List Char) :
    collectVarName f s = (s.takeWhile (rustIdentChar f), s.dropWhile (rustIdentChar f)) := by
  induction s with
  | nil => simp [collectVarName]
  | cons c s ih =>
    by_cases h : rustIdentChar f c
    · simp [collectVarName, h, ih, List.takeWhile_cons, List.dropWhile_cons]
    · simp [collectVarName, h, List.takeWhile_cons, List.dropWhile_cons]

theorem expandVariables_nil (f : Char → Bool) (v : Variable) :
    expandVariables f v [] = [] := by
  rw [expandVariables.eq_def]

theorem expandVariables_cons_ne (f : Char → Bool) (v : Variable) (c : Char)
    (s : List Char) (h : c ≠ '$') :
    expandVariables f v (c :: s) = c :: expandVariables f v s := by
  rw [expandVariables.eq_def]
  dsimp only
  rw [if_neg (by simp [h])]

theorem expandVariables_dollar_last (f : Char → Bool) (v : Variable) :
    expandVariables f v ['$'] = ['$'] := by
  rw [expandVariables.eq_def]
  dsimp only
  rw [if_neg (by simp), expandVariables_nil]

theorem expandVariables_dollar_cons (f : Char → Bool) (v : Variable) (c : Char)
    (s : List Char) :
    expandVariables f v ('$' :: c :: s) =
      (if ((c :: s).takeWhile (rustIdentChar f)) ≠ [] then
        (v.get (String.mk ((c :: s).takeWhile (rustIdentChar f)))).data
      else []) ++ expandVariables f v ((c :: s).dropWhile (rustIdentChar f)) := by
  rw [expandVariables.eq_def]
  dsimp only
  rw [if_pos (by simp), collectVarName_eq_span]

theorem expand_dollar_nonident (f : Char → Bool) (v : Variable) (c : Char)
    (s : List Char) (h : rustIdentChar f c = false) :
    expandVariables f v ('$' :: c :: s) = expandVariables f v (c :: s) := by
  rw [expandVariables_dollar_cons,
    List.takeWhile_cons_of_neg (by simp [h]), List.dropWhile_cons_of_neg (by simp [h])]
  simp

theorem expand_dollar_ident (f : Char → Bool) (v : Variable) (c : Char)
    (s : List Char) (h : rustIdentChar f c = true) :
    expandVariables f v ('$' :: c :: s) =
      (v.get (String.mk ((c :: s).takeWhile (rustIdentChar f)))).data ++
        expandVariables f v ((c :: s).dropWhile (rustIdentChar f)) := by
  rw [expandVariables_dollar_cons, if_pos (by rw [List.takeWhile_cons_of_pos h]; simp)]

theorem dropWhile_append_singleton {α : Type} (p : α → Bool) (x : α) (hx : p x = false) :
    ∀ (l : List α), (l ++ [x]).dropWhile p = l.dropWhile p ++ [x] := by
  intro l
  induction l with
  | nil => simp [List.dropWhile, hx]
  | cons c l ih =>
    by_cases h : p c
    · simp only [List.cons_append, List.dropWhile_cons_of_pos h]
      exact ih
    · simp [List.cons_append, List.dropWhile_cons_of_neg h]

theorem expand_append_dollar (f : Char → Bool) (v : Variable)
    (hdol : rustIdentChar f '$' = false) :
    ∀ (n : Nat) (s : List Char), s.length ≤ n →
      ∃ t, expandVariables f v (s ++ ['$']) = t ++ ['$'] := by
  intro n
  induction n with
  | zero =>
    intro s hl
    have : s = [] := List.length_eq_zero.mp (Nat.le_zero.mp hl)
    subst this
    exact ⟨[], by simp [expandVariables_dollar_last]⟩
  | succ n ih =>
    intro s hl
    cases s with
    | nil => exact ⟨[], by simp [expandVariables_dollar_last]⟩
    | cons c s2 =>
      simp only [List.length_cons] at hl
      by_cases hc : c = '$'
      · subst hc
        cases s2 with
        | nil =>
          refine ⟨[], ?_⟩
          have h1 : expandVariables f v ('$' :: '$' :: []) = expandVariables f v ['$'] := by
            rw [expandVariables_dollar_cons,
              List.takeWhile_cons_of_neg (by simp [hdol]),
              List.dropWhile_cons_of_neg (by simp [hdol])]
            simp
          simp only [List.cons_append, List.nil_append]
          rw [h1, expandVariables_dollar_last]
        | cons c2 s3 =>
          rw [List.cons_append, List.cons_append, expandVariables_dollar_cons]
          have hdrop : ((c2 :: s3) ++ ['$']).dropWhile (rustIdentChar f) =
              (c2 :: s3).dropWhile (rustIdentChar f) ++ ['$'] :=
            dropWhile_append_singleton (rustIdentChar f) '$' hdol (c2 :: s3)
          rw [show c2 :: (s3 ++ ['$']) = (c2 :: s3) ++ ['$'] from rfl, hdrop]
          have hlen : ((c2 :: s3).dropWhile (rustIdentChar f)).length ≤ n := by
            have h1 := (List.dropWhile_sublist (l := c2 :: s3) (rustIdentChar f)).length_le
            have hl2 := hl
            simp only [List.length_cons] at h1 hl2 ⊢
            omega
          obtain ⟨t2, ht2⟩ := ih _ hlen
          rw [ht2]
          exact ⟨_, by rw [List.append_assoc]⟩
      · rw [List.cons_append, expandVariables_cons_ne f v c _ hc]
        obtain ⟨t2, ht2⟩ := ih s2 (by omega)
        rw [ht2]
        exact ⟨c :: t2, rfl⟩

theorem expandVariables_congr (f g : Char → Bool) (v : Variable) :
    ∀ (n : Nat) (s : List Char), s.length ≤ n →
      (∀ c ∈ s, rustIdentChar f c = rustIdentChar g c) →
      expandVariables f v s = expandVariables g v s := by
  intro n
  induction n with
  | zero =>
    intro s hl _
    have : s = [] := List.length_eq_zero.mp (Nat.le_zero.mp hl)
    subst this
    rw [expandVariables_nil, expandVariables_nil]
  | succ n ih =>
    intro s hl hagree
    cases s with
    | nil => rw [expandVariables_nil, expandVariables_nil]
    | cons c s2 =>
      simp only [List.length_cons] at hl
      by_cases hc : c = '$'
      · subst hc
        cases s2 with
        | nil => rw [expandVariables_dollar_last, expandVariables_dollar_last]
        | cons c2 s3 =>
          rw [expandVariables_dollar_cons, expandVariables_dollar_cons]
          have hsub : ∀ a ∈ c2 :: s3, rustIdentChar f a = rustIdentChar g a :=
            fun a ha => hagree a (List.mem_cons_of_mem _ ha)
          obtain ⟨htw, hdw⟩ :=
            takeWhile_congr_mem (rustIdentChar f) (rustIdentChar g) (c2 :: s3) hsub
          rw [htw, hdw]
          have hrec : expandVariables f v ((c2 :: s3).dropWhile (rustIdentChar g)) =
              expandVariables g v ((c2 :: s3).dropWhile (rustIdentChar g)) := by
            apply ih
            · have h1 := (List.dropWhile_sublist (l := c2 :: s3) (rustIdentChar g)).length_le
              simp only [List.length_cons] at h1 hl ⊢
              omega
            · intro a ha
              exact hsub a ((List.dropWhile_sublist (l := c2 :: s3) (rustIdentChar g)).subset ha)
          rw [hrec]
      · rw [expandVariables_cons_ne f v c s2 hc, expandVariables_cons_ne g v c s2 hc,
          ih s2 (by omega) (fun a ha => hagree a (List.mem_cons_of_mem _ ha))]

/-- The example store `FOO=bar`. -/
def fooStore : Variable := ⟨[("FOO", "bar")]⟩

/-- C7 (amended): the identifier class of `expand_variables` is Rust's
Unicode `is_alphanumeric`-or-underscore — wider than the spec's
`[A-Za-z0-9_]` beyond ASCII — taken here as the parameter `f`,
constrained only at the characters a run consults.  For every store:
the empty string expands to itself; a character not following a `$` is
copied; a `$` that is the last character is kept; a `$` whose next
character is outside the identifier class is deleted (the next
character is kept and processed normally); a `$` followed by an
identifier character substitutes the store value of the maximal
identifier run (empty when unbound).  On ASCII arguments the run is
exactly the spec's `[A-Za-z0-9_]+`; with `FOO=bar`, `$FOO-x` expands to
`bar-x` and `$UNSET` to the empty string. -/
theorem C7_expand_variables :
    (∀ (f : Char → Bool) (v : Variable),
      expandVariables f v [] = [] ∧
      (∀ (c : Char) (s : List Char), c ≠ '$' →
        expandVariables f v (c :: s) = c :: expandVariables f v s) ∧
      expandVariables f v ['$'] = ['$'] ∧
      (∀ (c : Char) (s : List Char), rustIdentChar f c = false →
        expandVariables f v ('$' :: c :: s) = expandVariables f v (c :: s)) ∧
      (∀ (c : Char) (s : List Char), rustIdentChar f c = true →
        expandVariables f v ('$' :: c :: s) =
          (v.get (String.mk ((c :: s).takeWhile (rustIdentChar f)))).data ++
            expandVariables f v ((c :: s).dropWhile (rustIdentChar f)))) ∧
    (∀ (f : Char → Bool) (v : Variable) (c : Char) (s : List Char),
      (∀ d, d.toNat < 128 → f d = asciiAlnum d) → (∀ d ∈ c :: s, d.toNat < 128) →
      specIdentChar c = true →
        expandVariables f v ('$' :: c :: s) =
          (v.get (String.mk ((c :: s).takeWhile specIdentChar))).data ++
            expandVariables f v ((c :: s).dropWhile specIdentChar)) ∧
    (∀ (f : Char → Bool), (∀ d, d.toNat < 128 → f d = asciiAlnum d) →
      expandVariables f fooStore "$FOO-x".data = "bar-x".data ∧
      expandVariables f fooStore "$UNSET".data = []) := by
  refine ⟨fun f v => ⟨expandVariables_nil f v, expandVariables_cons_ne f v,
    expandVariables_dollar_last f v, expand_dollar_nonident f v,
    expand_dollar_ident f v⟩, ?_, ?_⟩
  · intro f v c s hagree hascii hc
    have hfs : ∀ d ∈ c :: s, rustIdentChar f d = specIdentChar d :=
      fun d hd => rustIdentChar_agree f hagree d (hascii d hd)
    have hfc : rustIdentChar f c = true := by
      rw [hfs c (List.mem_cons_self c s)]
      exact hc
    rw [expand_dollar_ident f v c s hfc]
    obtain ⟨htw, hdw⟩ := takeWhile_congr_mem (rustIdentChar f) specIdentChar (c :: s) hfs
    rw [htw, hdw]
  · intro f hagree
    have hall1 : ∀ d ∈ "$FOO-x".data, d.toNat < 128 := by decide
    have hall2 : ∀ d ∈ "$UNSET".data, d.toNat < 128 := by decide
    have hcongr1 : expandVariables f fooStore "$FOO-x".data =
        expandVariables asciiAlnum fooStore "$FOO-x".data := by
      apply expandVariables_congr f asciiAlnum fooStore "$FOO-x".data.length
        "$FOO-x".data (Nat.le_refl _)
      intro c hcmem
      simp [rustIdentChar, hagree c (hall1 c hcmem)]
    have hcongr2 : expandVariables f fooStore "$UNSET".data =
        expandVariables asciiAlnum fooStore "$UNSET".data := by
      apply expandVariables_congr f asciiAlnum fooStore "$UNSET".data.length
        "$UNSET".data (Nat.le_refl _)
      intro c hcmem
      simp [rustIdentChar, hagree c (hall2 c hcmem)]
    constructor
    · rw [hcongr1]
      simp [expandVariables, collectVarName, rustIdentChar, asciiAlnum, Variable.get, fooStore]
    · rw [hcongr2]
      simp [expandVariables, collectVarName, rustIdentChar, asciiAlnum, Variable.get, fooStore]

theorem C7_expand_variables_witness :
    expandVariables asciiAlnum fooStore "$FOO-x".data = "bar-x".data ∧
    expandVariables asciiAlnum fooStore "$UNSET".data = [] :=
  C7_expand_variables.2.2 asciiAlnum (fun _ _ => rfl)

/-- C7 counterexample to the claim as stated: with an empty store the
input `$-x` expands to `-x`, so the `$` (an "other character", not part
of any `$`-identifier occurrence) is not left unchanged.  This run
consults the identifier class only at `'-'`, where Rust's Unicode
`is_alphanumeric` agrees with `asciiAlnum`. -/
theorem C7_expand_variables_counterexample :
    expandVariables asciiAlnum ⟨[]⟩ "$-x".data = "-x".data ∧ "$-x".data ≠ "-x".data := by
  constructor
  · simp [expandVariables, collectVarName, rustIdentChar, asciiAlnum, Variable.get]
  · decide

/-- C10: for every classifier that, like Rust's `is_alphanumeric`,
rejects `'$'`, a `$` that is the last character of the input survives
expansion (the result still ends in `$`); a `$` immediately followed by
a character outside the identifier class is deleted while the following
character is kept and processed normally; e.g. `$-x` expands to `-x`
(that run consults the class only at `'-'`, which Rust, like
`asciiAlnum`, classifies as non-alphanumeric). -/
theorem C10_lone_dollar :
    (∀ (f : Char → Bool) (v : Variable) (s : List Char), rustIdentChar f '$' = false →
      (expandVariables f v (s ++ ['$'])).getLast? = some '$') ∧
    (∀ (f : Char → Bool) (v : Variable) (c : Char) (s : List Char),
      rustIdentChar f c = false →
      expandVariables f v ('$' :: c :: s) = expandVariables f v (c :: s)) ∧
    (∀ (f : Char → Bool), rustIdentChar f '-' = false →
      expandVariables f ⟨[]⟩ "$-x".data = "-x".data) := by
  refine ⟨?_, ?_, ?_⟩
  · intro f v s hdol
    obtain ⟨t, ht⟩ := expand_append_dollar f v hdol s.length s (Nat.le_refl _)
    rw [ht, List.getLast?_concat]
  · intro f v c s h
    exact expand_dollar_nonident f v c s h
  · intro f hdash
    show expandVariables f ⟨[]⟩ ('$' :: '-' :: 'x' :: []) = '-' :: 'x' :: []
    rw [expand_dollar_nonident f ⟨[]⟩ '-' ('x' :: []) hdash,
      expandVariables_cons_ne f ⟨[]⟩ '-' ('x' :: []) (by decide),
      expandVariables_cons_ne f ⟨[]⟩ 'x' [] (by decide),
      expandVariables_nil]

namespace ShellJM

theorem findAvailableIndexFrom_ge (jobs : List Job) :
    ∀ (i : Nat), i ≤ findAvailableIndexFrom jobs i := by
  intro i
  induction i using findAvailableIndexFrom.induct jobs with
  | case1 i h ih =>
    rw [findAvailableIndexFrom, if_pos h]
    omega
  | case2 i h =>
    rw [findAvailableIndexFrom, if_neg h]

theorem findAvailableIndexFrom_not_used (jobs : List Job) :
    ∀ (i : Nat), ∀ j ∈ jobs, j.index ≠ findAvailableIndexFrom jobs i := by
  intro i
  induction i using findAvailableIndexFrom.induct jobs with
  | case1 i h ih =>
    rw [findAvailableIndexFrom, if_pos h]
    exact ih
  | case2 i h =>
    rw [findAvailableIndexFrom, if_neg h]
    intro j hj hidx
    exact h (by simp only [List.any_eq_true, decide_eq_true_eq]; exact ⟨j, hj, hidx⟩)

theorem findAvailableIndexFrom_min (jobs : List Job) :
    ∀ (i : Nat), ∀ k, i ≤ k → k < findAvailableIndexFrom jobs i →
      ∃ j ∈ jobs, j.index = k := by
  intro i
  induction i using findAvailableIndexFrom.induct jobs with
  | case1 i h ih =>
    rw [findAvailableIndexFrom, if_pos h]
    intro k hik hk
    by_cases hke : k = i
    · subst hke
      simp only [List.any_eq_true, decide_eq_true_eq] at h
      exact h
    · exact ih k (by omega) hk
  | case2 i h =>
    rw [findAvailableIndexFrom, if_neg h]
    intro k hik hk
    omega

end ShellJM

/-- C3: `add_job` assigns the new job the lowest positive index not held
by any live job: `find_available_index` is at least 1, is unused, every
smaller positive index is in use, and the job appended by `add_job`
carries exactly that index (so after a removal frees an index, the next
`add_job` reuses the lowest free one). -/
theorem C3_lowest_free_index (m : ShellJM.JobManager) (gid pid : Int) (command : String) :
    1 ≤ ShellJM.find_available_index m ∧
    (∀ j ∈ m.jobs, j.index ≠ ShellJM.find_available_index m) ∧
    (∀ k, 1 ≤ k → k < ShellJM.find_available_index m → ∃ j ∈ m.jobs, j.index = k) ∧
    (∃ jnew, (ShellJM.add_job m gid pid command).jobs.getLast? = some jnew ∧
      jnew.index = ShellJM.find_available_index m) := by
  refine ⟨ShellJM.findAvailableIndexFrom_ge m.jobs 1,
    ShellJM.findAvailableIndexFrom_not_used m.jobs 1,
    fun k h1 h2 => ShellJM.findAvailableIndexFrom_min m.jobs 1 k h1 h2, ?_⟩
  unfold ShellJM.add_job ShellJM.update_marks
  dsimp only
  rw [List.map_append, List.map_cons, List.map_nil, List.getLast?_concat]
  refine ⟨_, rfl, ?_⟩
  simp [ShellJM.Job.new]

/-- A one-job table used to instantiate C3. -/
def c3Job : ShellJM.Job :=
  { gid := 0, pid := 1, index := 1, command := "c",
    status := ShellJM.JobStatus.continued,
    is_bg := false, is_current := true, is_previous := false }

theorem C3_lowest_free_index_witness :
    ∃ j ∈ (⟨[c3Job]⟩ : ShellJM.JobManager).jobs, j.index = 1 :=
  (C3_lowest_free_index ⟨[c3Job]⟩ 0 2 "c").2.2.1 1 (by omega) (by
    simp [ShellJM.find_available_index, ShellJM.findAvailableIndexFrom, c3Job])

theorem parseArgs_words (ws : List String) :
    ∀ (c : Command), parseSimpleCommandArgs c (ws.map Token.word) =
      Except.ok ({ c with arguments := c.arguments ++ ws }, []) := by
  induction ws with
  | nil => intro c; simp [parseSimpleCommandArgs]
  | cons w ws ih =>
    intro c
    simp only [List.map_cons, parseSimpleCommandArgs]
    rw [ih]
    simp

/-- C5: a non-empty sequence of word tokens parses to `Node::Command`
whose program is the first word and whose arguments are the remaining
words in order, with no redirections and `background = false`. -/
theorem C5_single_command (w : String) (ws : List String) :
    parseCommandTokens (Token.word w :: ws.map Token.word) =
      Except.ok (Node.command
        { program := w, arguments := ws, redirections := [], background := false }) := by
  have hsimple : parseSimpleCommand (Token.word w :: ws.map Token.word) =
      Except.ok ((⟨w, ws, [], false⟩ : Command), ([] : List Token)) := by
    rw [parseSimpleCommand]
    rw [parseArgs_words]
    simp
  have hloop : parseCommandLoop (Token.word w :: ws.map Token.word) [] =
      Except.ok [(⟨w, ws, [], false⟩ : Command)] := by
    rw [parseCommandLoop]
    split
    · rename_i e heq
      rw [hsimple] at heq
      simp at heq
    · rename_i cmd rest heq
      rw [hsimple] at heq
      simp only [Except.ok.injEq, Prod.mk.injEq] at heq
      obtain ⟨hc, hr⟩ := heq
      subst hc
      subst hr
      simp
    · simp
  rw [parseCommandTokens, hloop]
  simp [commandsToNode]

theorem lexAll_no_eof : ∀ (s : List Char), Token.eof ∉ lexAll s := by
  intro s
  induction s using lexAll.induct with
  | case1 s h =>
    rw [lexAll]
    simp [h]
  | case2 s h ih =>
    rw [lexAll, dif_neg h]
    intro hmem
    rcases List.mem_cons.mp hmem with h1 | h2
    · exact h h1.symm
    · exact ih h2
theorem parseCommandLoop_acc :
    ∀ (ts : List Token) (acc : List Command) (res : List Command),
      parseCommandLoop ts acc = Except.ok res →
        ∃ extra, res = acc ++ extra ∧
          (extra = [] → ts = [] ∨ ∃ tail, ts = Token.eof :: tail) := by
  intro ts acc
  induction ts, acc using parseCommandLoop.induct with
  | case1 acc =>
    intro res h
    rw [parseCommandLoop] at h
    simp only [Except.ok.injEq] at h
    exact ⟨[], by simp [h], fun _ => Or.inl rfl⟩
  | case2 acc tail =>
    intro res h
    rw [parseCommandLoop] at h
    simp only [Except.ok.injEq] at h
    exact ⟨[], by simp [h], fun _ => Or.inr ⟨tail, rfl⟩⟩
  | case3 acc t ts2 hne e herr =>
    intro res h
    rw [parseCommandLoop] at h
    split at h
    · simp at h
    · rename_i cmd rest heq
      rw [herr] at heq
      simp at heq
    exact hne
  | case4 acc t ts2 hne cmd rest2 heq1 heq2 ih =>
    intro res h
    rw [parseCommandLoop] at h
    split at h
    · rename_i e heq3
      rw [heq1] at heq3
      simp at heq3
    · rename_i cmd2 rest heq3
      rw [heq1] at heq3
      simp only [Except.ok.injEq, Prod.mk.injEq] at heq3
      obtain ⟨hc, hr⟩ := heq3
      subst hc
      subst hr
      simp only [] at h
      obtain ⟨extra, hex, _⟩ := ih res h
      exact ⟨cmd :: extra, by simp [hex], fun hemp => by simp at hemp⟩
    exact hne
  | case5 acc t ts2 hne cmd tail heq1 heq2 =>
    intro res h
    rw [parseCommandLoop] at h
    split at h
    · rename_i e heq3
      rw [heq1] at heq3
      simp at heq3
    · rename_i cmd2 rest heq3
      rw [heq1] at heq3
      simp only [Except.ok.injEq, Prod.mk.injEq] at heq3
      obtain ⟨hc, hr⟩ := heq3
      subst hc
      subst hr
      simp only [Except.ok.injEq] at h
      exact ⟨[cmd], by simp [← h], fun hemp => by simp at hemp⟩
    exact hne
  | case6 acc t ts2 hne cmd rest heq1 heq2 hnp hns =>
    intro res h
    rw [parseCommandLoop] at h
    split at h
    · rename_i e heq3
      rw [heq1] at heq3
      simp at heq3
    · rename_i cmd2 rest3 heq3
      rw [heq1] at heq3
      simp only [Except.ok.injEq, Prod.mk.injEq] at heq3
      obtain ⟨hc, hr⟩ := heq3
      subst hc
      subst hr
      cases rest with
      | nil =>
        simp only [Except.ok.injEq] at h
        exact ⟨[cmd], by simp [← h], fun hemp => by simp at hemp⟩
      | cons tk rest4 =>
        cases tk with
        | pipe => exact (hnp rest4 heq2 rfl HEq.rfl).elim
        | semi =>
          simp only [Except.ok.injEq] at h
          exact ⟨[cmd], by simp [← h], fun hemp => by simp at hemp⟩
        | word w =>
          simp only [Except.ok.injEq] at h
          exact ⟨[cmd], by simp [← h], fun hemp => by simp at hemp⟩
        | redirect op =>
          simp only [Except.ok.injEq] at h
          exact ⟨[cmd], by simp [← h], fun hemp => by simp at hemp⟩
        | background =>
          simp only [Except.ok.injEq] at h
          exact ⟨[cmd], by simp [← h], fun hemp => by simp at hemp⟩
        | eof =>
          simp only [Except.ok.injEq] at h
          exact ⟨[cmd], by simp [← h], fun hemp => by simp at hemp⟩
    exact hne

theorem lexAll_nil : lexAll ([] : List Char) = [] := by
  rw [lexAll]
  decide

/-- C4 (amended): a successful parse yields either a bare `Node::Command`
(exactly one command was collected — a lone command is never wrapped) or a
`Node::Pipeline` with at least two commands, except that an input with no
tokens at all yields the empty pipeline `Node::Pipeline []`. -/
theorem C4_pipeline_shape (input : String) (node : Node)
    (h : parse_command input = Except.ok node) :
    (∃ c, node = Node.command c) ∨
    (∃ cs, node = Node.pipeline cs ∧ 2 ≤ cs.length) ∨
    (node = Node.pipeline [] ∧ lexAll input.data = []) := by
  rw [parse_command, parseCommandTokens] at h
  cases hl : parseCommandLoop (lexAll input.data) [] with
  | error e =>
    rw [hl] at h
    simp at h
  | ok cmds =>
    rw [hl] at h
    simp only [Except.ok.injEq] at h
    subst h
    obtain ⟨extra, hex, hemp⟩ := parseCommandLoop_acc _ [] cmds hl
    simp only [List.nil_append] at hex
    subst hex
    by_cases h1 : cmds.length = 1
    · exact Or.inl ⟨_, by rw [commandsToNode, if_pos h1]⟩
    · cases cmds with
      | nil =>
        rcases hemp rfl with h2 | ⟨tail, h2⟩
        · exact Or.inr (Or.inr ⟨by simp [commandsToNode], h2⟩)
        · exact absurd (by rw [h2]; exact List.mem_cons_self _ _)
            (lexAll_no_eof input.data)
      | cons c extra2 =>
        have h2 : 2 ≤ (c :: extra2).length := by
          simp only [List.length_cons] at h1 ⊢
          omega
        exact Or.inr (Or.inl ⟨c :: extra2, by rw [commandsToNode, if_neg h1], h2⟩)

/-- C4 counterexample to the claim as stated: the empty input parses
successfully to `Node::Pipeline []`, which is neither a `Command` nor a
pipeline of at least two commands. -/
theorem C4_pipeline_shape_counterexample :
    parse_command "" = Except.ok (Node.pipeline []) ∧
    ¬(2 ≤ ([] : List Command).length) := by
  have hpl : parseCommandLoop ([] : List Token) [] = Except.ok [] := by
    rw [parseCommandLoop]
  constructor
  · rw [parse_command, show ("" : String).data = ([] : List Char) from rfl, lexAll_nil,
      parseCommandTokens, hpl]
    rfl
  · decide

theorem C4_pipeline_shape_witness :
    (∃ c, Node.command (⟨"a", [], [], false⟩ : Command) = Node.command c) ∨
    (∃ cs, Node.command (⟨"a", [], [], false⟩ : Command) = Node.pipeline cs ∧
      2 ≤ cs.length) ∨
    (Node.command (⟨"a", [], [], false⟩ : Command) = Node.pipeline [] ∧
      lexAll "a".data = []) :=
  C4_pipeline_shape "a" (Node.command ⟨"a", [], [], false⟩) (by
    have h1 : nextToken "a".data = (Token.word "a", []) := by
      simp [nextToken, readWord, wordBreakChar, squoteChar]
    have h2 : lexAll "a".data = [Token.word "a"] := by
      rw [lexAll, dif_neg (by rw [h1]; decide)]
      rw [h1]
      dsimp only
      rw [lexAll_nil]
    have h3 : parseSimpleCommand [Token.word "a"] =
        Except.ok ((⟨"a", [], [], false⟩ : Command), ([] : List Token)) := rfl
    have h4 : parseCommandLoop [Token.word "a"] [] =
        Except.ok [(⟨"a", [], [], false⟩ : Command)] := by
      rw [parseCommandLoop]
      split
      · rename_i e heq
        rw [h3] at heq
        simp at heq
      · rename_i cmd rest heq
        rw [h3] at heq
        simp only [Except.ok.injEq, Prod.mk.injEq] at heq
        obtain ⟨hc, hr⟩ := heq
        subst hc
        subst hr
        simp
      · decide
    rw [parse_command, h2, parseCommandTokens, h4]
    rfl)

theorem C10_lone_dollar_witness :
    (expandVariables asciiAlnum ⟨[]⟩ ("ab".data ++ ['$'])).getLast? = some '$' ∧
    expandVariables asciiAlnum ⟨[]⟩ "$-x".data = "-x".data :=
  ⟨C10_lone_dollar.1 asciiAlnum ⟨[]⟩ "ab".data (by decide),
   C10_lone_dollar.2.2 asciiAlnum (by decide)⟩

/-- Modelled from the spec (§4.2): after the program word, a simple
command is "a mixed run of argument words and redirections, terminated by
`&`, pipe, semicolon, or end-of-input", where each redirection operator
must be followed by a filename word.  Returns the tokens left after the
simple command, or `none` when a redirection lacks its filename. -/
def specArgsRest : List Token → Option (List Token)
  | [] => some []
  | Token.eof :: rest => some (Token.eof :: rest)
  | Token.pipe :: rest => some (Token.pipe :: rest)
  | Token.semi :: rest => some (Token.semi :: rest)
  | Token.background :: rest => some rest
  | Token.redirect _ :: Token.word _ :: rest => specArgsRest rest
  | Token.redirect _ :: _ => none
  | Token.word _ :: rest => specArgsRest rest

theorem specArgsRest_len :
    ∀ (ts r : List Token), specArgsRest ts = some r → r.length ≤ ts.length := by
  intro ts
  induction ts using specArgsRest.induct with
  | case1 =>
    intro r h
    simp [specArgsRest] at h
    simp [← h]
  | case2 rest =>
    intro r h
    simp [specArgsRest] at h
    simp [← h]
  | case3 rest =>
    intro r h
    simp [specArgsRest] at h
    simp [← h]
  | case4 rest =>
    intro r h
    simp [specArgsRest] at h
    simp [← h]
  | case5 rest =>
    intro r h
    simp [specArgsRest] at h
    simp [← h]
  | case6 op f rest ih =>
    intro r h
    simp only [specArgsRest] at h
    have := ih r h
    simp only [List.length_cons]
    omega
  | case7 op rest hne =>
    intro r h
    cases rest with
    | nil => simp [specArgsRest] at h
    | cons t r2 =>
      cases t with
      | word f => exact absurd rfl (hne f r2)
      | pipe => simp [specArgsRest] at h
      | redirect op2 => simp [specArgsRest] at h
      | background => simp [specArgsRest] at h
      | semi => simp [specArgsRest] at h
      | eof => simp [specArgsRest] at h
  | case8 w rest ih =>
    intro r h
    simp only [specArgsRest] at h
    have := ih r h
    simp only [List.length_cons]
    omega

theorem specArgsRest_parse :
    ∀ (ts : List Token) (c : Command),
      (∀ r, specArgsRest ts = some r →
        ∃ c2, parseSimpleCommandArgs c ts = Except.ok (c2, r)) ∧
      (specArgsRest ts = none →
        parseSimpleCommandArgs c ts =
          Except.error "Expected filename after redirection operator") := by
  intro ts
  induction ts using specArgsRest.induct with
  | case1 =>
    intro c
    constructor
    · intro r h
      simp [specArgsRest] at h
      exact ⟨c, by simp [parseSimpleCommandArgs, ← h]⟩
    · intro h
      simp [specArgsRest] at h
  | case2 rest =>
    intro c
    constructor
    · intro r h
      simp [specArgsRest] at h
      exact ⟨c, by simp [parseSimpleCommandArgs, ← h]⟩
    · intro h
      simp [specArgsRest] at h
  | case3 rest =>
    intro c
    constructor
    · intro r h
      simp [specArgsRest] at h
      exact ⟨c, by simp [parseSimpleCommandArgs, ← h]⟩
    · intro h
      simp [specArgsRest] at h
  | case4 rest =>
    intro c
    constructor
    · intro r h
      simp [specArgsRest] at h
      exact ⟨c, by simp [parseSimpleCommandArgs, ← h]⟩
    · intro h
      simp [specArgsRest] at h
  | case5 rest =>
    intro c
    constructor
    · intro r h
      simp [specArgsRest] at h
      exact ⟨{ c with background := true }, by simp [parseSimpleCommandArgs, ← h]⟩
    · intro h
      simp [specArgsRest] at h
  | case6 op f rest ih =>
    intro c
    constructor
    · intro r h
      simp only [specArgsRest] at h
      obtain ⟨c2, hc2⟩ :=
        (ih { c with redirections :=
          c.redirections ++ [{ operator := op, filename := f }] }).1 r h
      exact ⟨c2, by simp only [parseSimpleCommandArgs]; exact hc2⟩
    · intro h
      simp only [specArgsRest] at h
      have := (ih { c with redirections :=
        c.redirections ++ [{ operator := op, filename := f }] }).2 h
      simp only [parseSimpleCommandArgs]
      exact this
  | case7 op rest hne =>
    intro c
    constructor
    · intro r h
      cases rest with
      | nil => simp [specArgsRest] at h
      | cons t r2 =>
        cases t with
        | word f => exact absurd rfl (hne f r2)
        | pipe => simp [specArgsRest] at h
        | redirect op2 => simp [specArgsRest] at h
        | background => simp [specArgsRest] at h
        | semi => simp [specArgsRest] at h
        | eof => simp [specArgsRest] at h
    · intro _
      cases rest with
      | nil => simp [parseSimpleCommandArgs]
      | cons t r2 =>
        cases t with
        | word f => exact absurd rfl (hne f r2)
        | pipe => simp [parseSimpleCommandArgs]
        | redirect op2 => simp [parseSimpleCommandArgs]
        | background => simp [parseSimpleCommandArgs]
        | semi => simp [parseSimpleCommandArgs]
        | eof => simp [parseSimpleCommandArgs]
  | case8 w rest ih =>
    intro c
    constructor
    · intro r h
      simp only [specArgsRest] at h
      obtain ⟨c2, hc2⟩ := (ih { c with arguments := c.arguments ++ [w] }).1 r h
      exact ⟨c2, by simp only [parseSimpleCommandArgs]; exact hc2⟩
    · intro h
      simp only [specArgsRest] at h
      have := (ih { c with arguments := c.arguments ++ [w] }).2 h
      simp only [parseSimpleCommandArgs]
      exact this

/-- Modelled from the spec (§4.2, §7): the token streams on which
`parse_command` succeeds — at each position where a program word is
required there is a word token, and every redirection operator is
followed by a filename word. -/
def wellFormedCmds (ts : List Token) : Bool :=
  match ts with
  | [] => true
  | Token.eof :: _ => true
  | Token.word _ :: rest =>
    match h : specArgsRest rest with
    | none => false
    | some r =>
      match r with
      | Token.pipe :: r2 => wellFormedCmds r2
      | _ => true
  | _ :: _ => false
termination_by ts.length
decreasing_by
  have h1 := specArgsRest_len _ _ h
  simp only [List.length_cons] at h1 ⊢
  omega

theorem wellFormedCmds_word (w : String) (ts2 : List Token) :
    wellFormedCmds (Token.word w :: ts2) =
      match specArgsRest ts2 with
      | none => false
      | some (Token.pipe :: r2) => wellFormedCmds r2
      | some _ => true := by
  rw [wellFormedCmds]
  split
  · rename_i heq
    rw [heq]
  · rename_i r heq
    conv_rhs => rw [heq]
    cases r with
    | nil => rfl
    | cons tk r2 => cases tk <;> rfl

theorem parseCommandLoop_eval (t : Token) (ts2 : List Token) (acc : List Command)
    (hne : t ≠ Token.eof) :
    (∀ e, parseSimpleCommand (t :: ts2) = Except.error e →
      parseCommandLoop (t :: ts2) acc = Except.error e) ∧
    (∀ c2 r, parseSimpleCommand (t :: ts2) = Except.ok (c2, r) →
      parseCommandLoop (t :: ts2) acc =
        match r with
        | Token.pipe :: r2 => parseCommandLoop r2 (acc ++ [c2])
        | Token.semi :: _ => Except.ok (acc ++ [c2])
        | _ => Except.ok (acc ++ [c2])) := by
  constructor
  · intro e he
    rw [parseCommandLoop]
    split
    · rename_i e2 heq
      rw [he] at heq
      simp only [Except.error.injEq] at heq
      rw [heq]
    · rename_i c2 r heq
      rw [he] at heq
      simp at heq
    exact hne
  · intro c2 r hok
    rw [parseCommandLoop]
    split
    · rename_i e2 heq
      rw [hok] at heq
      simp at heq
    · rename_i c3 r3 heq
      rw [hok] at heq
      simp only [Except.ok.injEq, Prod.mk.injEq] at heq
      obtain ⟨h1, h2⟩ := heq
      subst h1
      subst h2
      cases r with
      | nil => rfl
      | cons tk r4 => cases tk <;> rfl
    exact hne

theorem loop_wellFormed :
    ∀ (n : Nat) (ts : List Token), ts.length ≤ n → ∀ (acc : List Command),
      (wellFormedCmds ts = true → ∃ res, parseCommandLoop ts acc = Except.ok res) ∧
      (wellFormedCmds ts = false →
        parseCommandLoop ts acc = Except.error "Expected command name" ∨
        parseCommandLoop ts acc =
          Except.error "Expected filename after redirection operator") := by
  intro n
  induction n with
  | zero =>
    intro ts hl acc
    have hnil : ts = [] := List.length_eq_zero.mp (Nat.le_zero.mp hl)
    subst hnil
    constructor
    · intro _
      exact ⟨acc, by rw [parseCommandLoop]⟩
    · intro h
      simp [wellFormedCmds] at h
  | succ n ih =>
    intro ts hl acc
    cases ts with
    | nil =>
      constructor
      · intro _
        exact ⟨acc, by rw [parseCommandLoop]⟩
      · intro h
        simp [wellFormedCmds] at h
    | cons t ts2 =>
      simp only [List.length_cons] at hl
      cases t with
      | eof =>
        constructor
        · intro _
          exact ⟨acc, by rw [parseCommandLoop]⟩
        · intro h
          simp [wellFormedCmds] at h
      | word w =>
        cases hspec : specArgsRest ts2 with
        | none =>
          have herr : parseSimpleCommand (Token.word w :: ts2) =
              Except.error "Expected filename after redirection operator" := by
            rw [parseSimpleCommand]
            exact (specArgsRest_parse ts2
              ⟨w, [], [], false⟩).2 hspec
          have hloop := (parseCommandLoop_eval (Token.word w) ts2 acc (by simp)).1 _ herr
          constructor
          · intro hwf
            rw [wellFormedCmds_word, hspec] at hwf
            simp at hwf
          · intro _
            exact Or.inr hloop
        | some r =>
          obtain ⟨c2, hc2⟩ := (specArgsRest_parse ts2 ⟨w, [], [], false⟩).1 r hspec
          have hsimple : parseSimpleCommand (Token.word w :: ts2) = Except.ok (c2, r) := by
            rw [parseSimpleCommand]
            exact hc2
          have hloop := (parseCommandLoop_eval (Token.word w) ts2 acc (by simp)).2 c2 r hsimple
          have hrlen : r.length ≤ ts2.length := specArgsRest_len ts2 r hspec
          cases r with
          | nil =>
            rw [wellFormedCmds_word, hspec]
            constructor
            · intro _
              exact ⟨acc ++ [c2], hloop⟩
            · intro h
              simp at h
          | cons tk r2 =>
            cases tk with
            | pipe =>
              rw [wellFormedCmds_word, hspec]
              simp only [List.length_cons] at hrlen
              have hih := ih r2 (by omega) (acc ++ [c2])
              constructor
              · intro hwf
                obtain ⟨res, hres⟩ := hih.1 hwf
                exact ⟨res, by rw [hloop]; exact hres⟩
              · intro hwf
                rcases hih.2 hwf with h2 | h2
                · exact Or.inl (by rw [hloop]; exact h2)
                · exact Or.inr (by rw [hloop]; exact h2)
            | word w2 =>
              rw [wellFormedCmds_word, hspec]
              constructor
              · intro _
                exact ⟨acc ++ [c2], hloop⟩
              · intro h
                simp at h
            | semi =>
              rw [wellFormedCmds_word, hspec]
              constructor
              · intro _
                exact ⟨acc ++ [c2], hloop⟩
              · intro h
                simp at h
            | redirect op =>
              rw [wellFormedCmds_word, hspec]
              constructor
              · intro _
                exact ⟨acc ++ [c2], hloop⟩
              · intro h
                simp at h
            | background =>
              rw [wellFormedCmds_word, hspec]
              constructor
              · intro _
                exact ⟨acc ++ [c2], hloop⟩
              · intro h
                simp at h
            | eof =>
              rw [wellFormedCmds_word, hspec]
              constructor
              · intro _
                exact ⟨acc ++ [c2], hloop⟩
              · intro h
                simp at h
      | pipe =>
        have herr : parseSimpleCommand (Token.pipe :: ts2) =
            Except.error "Expected command name" := rfl
        have hloop := (parseCommandLoop_eval Token.pipe ts2 acc (by simp)).1 _ herr
        constructor
        · intro hwf
          simp [wellFormedCmds] at hwf
        · intro _
          exact Or.inl hloop
      | semi =>
        have herr : parseSimpleCommand (Token.semi :: ts2) =
            Except.error "Expected command name" := rfl
        have hloop := (parseCommandLoop_eval Token.semi ts2 acc (by simp)).1 _ herr
        constructor
        · intro hwf
          simp [wellFormedCmds] at hwf
        · intro _
          exact Or.inl hloop
      | background =>
        have herr : parseSimpleCommand (Token.background :: ts2) =
            Except.error "Expected command name" := rfl
        have hloop := (parseCommandLoop_eval Token.background ts2 acc (by simp)).1 _ herr
        constructor
        · intro hwf
          simp [wellFormedCmds] at hwf
        · intro _
          exact Or.inl hloop
      | redirect op =>
        have herr : parseSimpleCommand (Token.redirect op :: ts2) =
            Except.error "Expected command name" := rfl
        have hloop := (parseCommandLoop_eval (Token.redirect op) ts2 acc (by simp)).1 _ herr
        constructor
        · intro hwf
          simp [wellFormedCmds] at hwf
        · intro _
          exact Or.inl hloop

/-- C6: `parse_command` fails exactly when the token stream of the input
has a non-word token at a position where a program word is required, or a
redirection operator not followed by a filename word (the spec-level
predicate `wellFormedCmds`); every failure carries one of the two
descriptive error strings, and in all other cases a `Node` is returned. -/
theorem C6_parse_errors (input : String) :
    ((∃ node, parse_command input = Except.ok node) ↔
      wellFormedCmds (lexAll input.data) = true) ∧
    (∀ e, parse_command input = Except.error e →
      e = "Expected command name" ∨
      e = "Expected filename after redirection operator") := by
  have hmain := loop_wellFormed (lexAll input.data).length (lexAll input.data)
    (Nat.le_refl _) []
  constructor
  · constructor
    · intro hex
      obtain ⟨node, hnode⟩ := hex
      cases hb : wellFormedCmds (lexAll input.data) with
      | true => rfl
      | false =>
        rcases hmain.2 hb with h2 | h2 <;>
          simp [parse_command, parseCommandTokens, h2] at hnode
    · intro hwf
      obtain ⟨res, hres⟩ := hmain.1 hwf
      exact ⟨commandsToNode res, by rw [parse_command, parseCommandTokens, hres]⟩
  · intro e he
    cases hb : wellFormedCmds (lexAll input.data) with
    | true =>
      obtain ⟨res, hres⟩ := hmain.1 hb
      rw [parse_command, parseCommandTokens, hres] at he
      simp at he
    | false =>
      rcases hmain.2 hb with h2 | h2
      · left
        rw [parse_command] at he
        rw [parseCommandTokens, h2] at he
        simp only [Except.error.injEq] at he
        exact he.symm
      · right
        rw [parse_command] at he
        rw [parseCommandTokens, h2] at he
        simp only [Except.error.injEq] at he
        exact he.symm

theorem C6_parse_errors_witness :
    "Expected command name" = "Expected command name" ∨
    "Expected command name" = "Expected filename after redirection operator" :=
  (C6_parse_errors ";").2 "Expected command name" (by
    have h1 : nextToken ";".data = (Token.semi, []) := rfl
    have h2 : lexAll ";".data = [Token.semi] := by
      rw [lexAll, dif_neg (by rw [h1]; decide)]
      rw [h1]
      dsimp only
      rw [lexAll_nil]
    have herr : parseSimpleCommand [Token.semi] =
        Except.error "Expected command name" := rfl
    have hloop := (parseCommandLoop_eval Token.semi [] [] (by simp)).1 _ herr
    rw [parse_command, h2, parseCommandTokens, hloop])

namespace ExecJM

/-- The mark discipline of the spec: at most one current job, at most one
previous job, and no job carries both marks. -/
def marksOk (l : List Job) : Prop :=
  l.countP (fun j => j.is_current) ≤ 1 ∧
  l.countP (fun j => j.is_previous) ≤ 1 ∧
  ∀ j ∈ l, ¬(j.is_current = true ∧ j.is_previous = true)

/-- Indices of live jobs are pairwise distinct. -/
def indicesOk (l : List Job) : Prop :=
  (l.map (fun j => j.index)).Nodup

/-- The combined job-table invariant carried through the induction. -/
def inv (m : JobManager) : Prop :=
  indicesOk m.jobs ∧ marksOk m.jobs

theorem update_marks_indices (l : List Job) (i : Nat) :
    (update_marks ⟨l⟩ i).jobs.map (fun j => j.index) = l.map (fun j => j.index) := by
  unfold update_marks
  rw [List.map_map]
  apply List.map_congr_left
  intro j _
  simp only [Function.comp_apply]
  split
  · rfl
  · split <;> rfl

theorem update_marks_marksOk (l : List Job) (i : Nat)
    (hidx : indicesOk l) (hcur : l.countP (fun j => j.is_current) ≤ 1) :
    marksOk (update_marks ⟨l⟩ i).jobs := by
  unfold update_marks marksOk
  have hfcur : ∀ j : Job,
      ((if j.index = i then { j with is_current := true, is_previous := false }
        else if j.is_current then { j with is_current := false, is_previous := true }
        else { j with is_previous := false }) : Job).is_current
        = decide (j.index = i) := by
    intro j
    split
    · rename_i hj
      simp [hj]
    · rename_i hj
      split <;> simp_all
  have hfprev : ∀ j : Job,
      ((if j.index = i then { j with is_current := true, is_previous := false }
        else if j.is_current then { j with is_current := false, is_previous := true }
        else { j with is_previous := false }) : Job).is_previous
        = (!decide (j.index = i) && j.is_current) := by
    intro j
    split
    · rename_i hj
      simp [hj]
    · rename_i hj
      split <;> simp_all
  refine ⟨?_, ?_, ?_⟩
  · rw [List.countP_map]
    calc l.countP _ = l.countP (fun j => decide (j.index = i)) := by
          apply List.countP_congr
          intro j _
          simp only [Function.comp_apply, hfcur]
      _ ≤ 1 := nodup_countP_le_one (fun j => j.index) i l
          (by unfold indicesOk at hidx; exact hidx)
  · rw [List.countP_map]
    calc l.countP _ = l.countP (fun j => !decide (j.index = i) && j.is_current) := by
          apply List.countP_congr
          intro j _
          simp only [Function.comp_apply, hfprev]
      _ ≤ l.countP (fun j => j.is_current) := by
          apply List.countP_mono_left
          intro j _ hj
          simp only [Bool.and_eq_true] at hj
          exact hj.2
      _ ≤ 1 := hcur
  · intro j' hj'
    obtain ⟨j, hj, rfl⟩ := List.mem_map.mp hj'
    intro hcontra
    rw [hfcur j, hfprev j] at hcontra
    simp at hcontra
    exact absurd hcontra.2.1 (by simp [hcontra.1])

theorem findAvailFrom_not_used (jobs : List Job) :
    ∀ (i : Nat), ∀ j ∈ jobs, j.index ≠ findAvailableIndexFrom jobs i := by
  intro i
  induction i using findAvailableIndexFrom.induct jobs with
  | case1 i h ih =>
    rw [findAvailableIndexFrom, if_pos h]
    exact ih
  | case2 i h =>
    rw [findAvailableIndexFrom, if_neg h]
    intro j hj hidx
    exact h (by simp only [List.any_eq_true, decide_eq_true_eq]; exact ⟨j, hj, hidx⟩)

theorem add_job_inv (m : JobManager) (pid : Nat) (command : String)
    (h : inv m) : inv (add_job m pid command) := by
  obtain ⟨hidx, _, _, _⟩ := h
  unfold add_job
  dsimp only
  set demoted := m.jobs.map (fun j =>
    if j.is_current then { j with is_current := false, is_previous := true }
    else { j with is_previous := false }) with hdem
  set idx := findAvailableIndexFrom demoted 1 with hidxdef
  have hdemidx : demoted.map (fun j => j.index) = m.jobs.map (fun j => j.index) := by
    rw [hdem, List.map_map]
    apply List.map_congr_left
    intro j _
    simp only [Function.comp_apply]
    split <;> rfl
  have hdemcur : ∀ j ∈ demoted, j.is_current = false := by
    intro j hj
    rw [hdem] at hj
    obtain ⟨j0, _, rfl⟩ := List.mem_map.mp hj
    split <;> simp_all
  have hfresh : ∀ j ∈ demoted, j.index ≠ idx :=
    fun j hj => findAvailFrom_not_used demoted 1 j hj
  have hnodup2 : indicesOk (demoted ++
      [({ Job.new pid idx command JobStatus.continued with is_current := true } : Job)]) := by
    unfold indicesOk
    rw [List.map_append]
    simp only [List.map_cons, List.map_nil]
    rw [List.nodup_append]
    refine ⟨by rw [hdemidx]; exact hidx, by simp, ?_⟩
    intro a ha hb
    obtain ⟨j, hj, rfl⟩ := List.mem_map.mp ha
    simp only [List.mem_singleton] at hb
    have hji : j.index = idx := by simpa [Job.new] using hb
    exact hfresh j hj hji
  have hcur2 : (demoted ++
      [({ Job.new pid idx command JobStatus.continued with is_current := true } : Job)]).countP
      (fun j => j.is_current) ≤ 1 := by
    rw [List.countP_append]
    have h0 : demoted.countP (fun j => j.is_current) = 0 := by
      rw [List.countP_eq_zero]
      intro j hj
      simp [hdemcur j hj]
    simp [h0, List.countP_cons]
  constructor
  · unfold indicesOk
    rw [update_marks_indices]
    exact hnodup2
  · exact update_marks_marksOk _ idx hnodup2 hcur2

theorem promoteFirstPrevious_indices (l : List Job) :
    (promoteFirstPrevious l).map (fun j => j.index) = l.map (fun j => j.index) := by
  induction l with
  | nil => rfl
  | cons j rest ih =>
    by_cases h : j.is_previous
    · simp [promoteFirstPrevious, h]
    · simp [promoteFirstPrevious, h, ih]
theorem promoteFirstPrevious_marksOk (l : List Job)
    (hcur : l.countP (fun j => j.is_current) = 0)
    (hprev : l.countP (fun j => j.is_previous) ≤ 1) :
    marksOk (promoteFirstPrevious l) := by
  induction l with
  | nil =>
    exact ⟨by simp [promoteFirstPrevious], by simp [promoteFirstPrevious],
      by simp [promoteFirstPrevious]⟩
  | cons j rest ih =>
    rw [List.countP_eq_zero] at hcur
    have hj : j.is_current = false := by simpa using hcur j (by simp)
    have hrestcur : rest.countP (fun j => j.is_current) = 0 := by
      rw [List.countP_eq_zero]
      intro a ha
      exact hcur a (by simp [ha])
    by_cases h : j.is_previous = true
    · rw [promoteFirstPrevious, if_pos h]
      rw [List.countP_cons_of_pos _ _ (by simpa using h)] at hprev
      have hrestprev : rest.countP (fun j => j.is_previous) = 0 := by omega
      refine ⟨?_, ?_, ?_⟩
      · rw [List.countP_cons_of_pos _ _ (by simp)]
        simp [hrestcur]
      · rw [List.countP_cons_of_neg _ _ (by simp)]
        simp [hrestprev]
      · intro j2 hj2
        rcases List.mem_cons.mp hj2 with h1 | h1
        · subst h1
          simp
        · intro hc
          rw [List.countP_eq_zero] at hrestprev
          have h3 := hrestprev j2 h1
          simp only [decide_eq_true_eq] at h3
          exact h3 hc.2
    · rw [promoteFirstPrevious, if_neg h]
      rw [List.countP_cons_of_neg _ _ (by simpa using h)] at hprev
      obtain ⟨ih1, ih2, ih3⟩ := ih hrestcur hprev
      refine ⟨?_, ?_, ?_⟩
      · rw [List.countP_cons_of_neg _ _ (by simp [hj])]
        exact ih1
      · rw [List.countP_cons_of_neg _ _ (by simpa using h)]
        exact ih2
      · intro j2 hj2
        rcases List.mem_cons.mp hj2 with h1 | h1
        · subst h1
          simp [hj]
        · exact ih3 j2 h1

theorem setLastCurrent_indices :
    ∀ (l : List Job), (setLastCurrent l).map (fun j => j.index) = l.map (fun j => j.index) := by
  intro l
  induction l using setLastCurrent.induct with
  | case1 => rfl
  | case2 j => simp [setLastCurrent]
  | case3 j j2 hne ih =>
    rw [setLastCurrent]
    · simp only [List.map_cons] at ih ⊢
      rw [ih]
    · exact hne

theorem setLastCurrent_marksOk :
    ∀ (l : List Job), l.countP (fun j => j.is_current) = 0 →
      (∀ j ∈ l, j.is_previous = false) → marksOk (setLastCurrent l) := by
  intro l
  induction l using setLastCurrent.induct with
  | case1 =>
    intro _ _
    exact ⟨by simp [setLastCurrent], by simp [setLastCurrent], by simp [setLastCurrent]⟩
  | case2 j =>
    intro hcur hprev
    have hjp : j.is_previous = false := hprev j (by simp)
    refine ⟨?_, ?_, ?_⟩
    · simp only [setLastCurrent]
      rw [List.countP_cons_of_pos _ _ (by simp)]
      simp
    · simp only [setLastCurrent]
      rw [List.countP_cons_of_neg _ _ (by simp [hjp])]
      simp
    · intro j2 hj2
      simp only [setLastCurrent, List.mem_singleton] at hj2
      subst hj2
      simp [hjp]
  | case3 j j2 hne ih =>
    intro hcur hprev
    rw [List.countP_eq_zero] at hcur
    have hjc : j.is_current = false := by simpa using hcur j (by simp)
    have hrest : j2.countP (fun j => j.is_current) = 0 := by
      rw [List.countP_eq_zero]
      intro a ha
      exact hcur a (by simp [ha])
    obtain ⟨ih1, ih2, ih3⟩ := ih hrest (fun x hx => hprev x (by simp [hx]))
    rw [setLastCurrent]
    · refine ⟨?_, ?_, ?_⟩
      · rw [List.countP_cons_of_neg _ _ (by simp [hjc])]
        exact ih1
      · rw [List.countP_cons_of_neg _ _ (by simp [hprev j (by simp)])]
        exact ih2
      · intro x hx
        rcases List.mem_cons.mp hx with h1 | h1
        · subst h1
          simp [hjc]
        · exact ih3 x h1
    · exact hne

theorem remove_job_inv (m : JobManager) (pid : Nat) (h : inv m) :
    inv (remove_job m pid) := by
  obtain ⟨hidx, hcur, hprev, hboth⟩ := h
  unfold remove_job
  cases hfind : m.jobs.findIdx? (fun j => j.pid = pid) with
  | none => exact ⟨hidx, hcur, hprev, hboth⟩
  | some pos =>
    dsimp only
    cases hget : m.jobs[pos]? with
    | none => exact ⟨hidx, hcur, hprev, hboth⟩
    | some x =>
      have hsub : List.Sublist (m.jobs.eraseIdx pos) m.jobs := List.eraseIdx_sublist _ _
      have hidx1 : indicesOk (m.jobs.eraseIdx pos) := by
        unfold indicesOk at hidx ⊢
        exact List.Nodup.sublist (hsub.map _) hidx
      have hcur1 : (m.jobs.eraseIdx pos).countP (fun j => j.is_current) ≤ 1 :=
        le_trans (hsub.countP_le _) hcur
      have hprev1 : (m.jobs.eraseIdx pos).countP (fun j => j.is_previous) ≤ 1 :=
        le_trans (hsub.countP_le _) hprev
      have hboth1 : ∀ j ∈ m.jobs.eraseIdx pos,
          ¬(j.is_current = true ∧ j.is_previous = true) :=
        fun j hj => hboth j (hsub.subset hj)
      dsimp only
      split
      · rename_i hcond
        have hcur0 : (m.jobs.eraseIdx pos).countP (fun j => j.is_current) = 0 := by
          have hc := countP_eraseIdx (fun j => j.is_current) m.jobs pos x hget
          rw [if_pos (by simp [hcond.1])] at hc
          omega
        split
        · rename_i hany
          refine ⟨?_, ?_⟩
          · unfold indicesOk at hidx1 ⊢
            rw [promoteFirstPrevious_indices]
            exact hidx1
          · exact promoteFirstPrevious_marksOk _ hcur0 hprev1
        · rename_i hany
          have hnoprev : ∀ j ∈ m.jobs.eraseIdx pos, j.is_previous = false := by
            intro j hj
            by_contra hp
            exact hany (by
              simp only [List.any_eq_true, decide_eq_true_eq]
              exact ⟨j, hj, by simpa using hp⟩)
          refine ⟨?_, ?_⟩
          · unfold indicesOk at hidx1 ⊢
            rw [setLastCurrent_indices]
            exact hidx1
          · exact setLastCurrent_marksOk _ hcur0 hnoprev
      · exact ⟨hidx1, hcur1, hprev1, hboth1⟩

theorem set_same_marks_inv (l : List Job) (pos : Nat) (x y : Job)
    (hget : l[pos]? = some x)
    (hidxy : y.index = x.index) (hc : y.is_current = x.is_current)
    (hp : y.is_previous = x.is_previous) :
    (indicesOk l → indicesOk (l.set pos y)) ∧
    ((l.set pos y).countP (fun j => j.is_current) = l.countP (fun j => j.is_current)) ∧
    ((l.set pos y).countP (fun j => j.is_previous) = l.countP (fun j => j.is_previous)) ∧
    ((∀ j ∈ l, ¬(j.is_current = true ∧ j.is_previous = true)) →
      ∀ j ∈ l.set pos y, ¬(j.is_current = true ∧ j.is_previous = true)) := by
  refine ⟨?_, ?_, ?_, ?_⟩
  · intro h
    unfold indicesOk at h ⊢
    rw [map_set_eq (fun j => j.index) l pos x y hget hidxy]
    exact h
  · have hcs := countP_set (fun j => j.is_current) l pos x y hget
    dsimp only at hcs
    rw [hc] at hcs
    omega
  · have hps := countP_set (fun j => j.is_previous) l pos x y hget
    dsimp only at hps
    rw [hp] at hps
    omega
  · intro h j hj
    rcases List.mem_or_eq_of_mem_set hj with h1 | h1
    · exact h j h1
    · subst h1
      rw [hc, hp]
      exact h x (List.getElem?_mem hget)

theorem fg_inv (m : JobManager) (index : Option Nat) (h : inv m) :
    inv (fg m index).2 := by
  obtain ⟨hidx, hcur, hprev, hboth⟩ := h
  unfold fg
  cases index with
  | none =>
    dsimp only
    cases hfind : m.jobs.findIdx? (fun j => j.is_current) with
    | none => exact ⟨hidx, hcur, hprev, hboth⟩
    | some pos =>
      dsimp only
      cases hget : m.jobs[pos]? with
      | none => exact ⟨hidx, hcur, hprev, hboth⟩
      | some j =>
        have hs := set_same_marks_inv m.jobs pos j
          { j with status := JobStatus.continued } hget rfl rfl rfl
        refine ⟨?_, ?_⟩
        · unfold indicesOk at hidx ⊢
          rw [update_marks_indices]
          exact (hs.1 hidx : indicesOk _)
        · exact update_marks_marksOk _ j.index (hs.1 hidx)
            (by rw [hs.2.1]; exact hcur)
  | some i =>
    dsimp only
    cases hfind : m.jobs.findIdx? (fun j => j.index = i) with
    | none => exact ⟨hidx, hcur, hprev, hboth⟩
    | some pos =>
      dsimp only
      cases hget : m.jobs[pos]? with
      | none => exact ⟨hidx, hcur, hprev, hboth⟩
      | some j =>
        have hs := set_same_marks_inv m.jobs pos j
          { j with status := JobStatus.continued } hget rfl rfl rfl
        refine ⟨?_, ?_⟩
        · unfold indicesOk at hidx ⊢
          rw [update_marks_indices]
          exact (hs.1 hidx : indicesOk _)
        · exact update_marks_marksOk _ j.index (hs.1 hidx)
            (by rw [hs.2.1]; exact hcur)

theorem bg_inv (m : JobManager) (index : Nat) (h : inv m) :
    inv (bg m index).2 := by
  obtain ⟨hidx, hcur, hprev, hboth⟩ := h
  unfold bg
  cases hfind : m.jobs.findIdx? (fun j => j.index = index) with
  | none => exact ⟨hidx, hcur, hprev, hboth⟩
  | some pos =>
    dsimp only
    cases hget : m.jobs[pos]? with
    | none => exact ⟨hidx, hcur, hprev, hboth⟩
    | some j =>
      have hs := set_same_marks_inv m.jobs pos j
        { j with status := JobStatus.continued } hget rfl rfl rfl
      refine ⟨?_, ?_⟩
      · unfold indicesOk at hidx ⊢
        rw [update_marks_indices]
        exact (hs.1 hidx : indicesOk _)
      · exact update_marks_marksOk _ j.index (hs.1 hidx)
          (by rw [hs.2.1]; exact hcur)

theorem mark_suspended_inv (m : JobManager) (pid : Nat) (h : inv m) :
    inv (mark_suspended m pid).2 := by
  obtain ⟨hidx, hcur, hprev, hboth⟩ := h
  unfold mark_suspended
  cases hfind : m.jobs.findIdx? (fun j => j.pid = pid) with
  | none => exact ⟨hidx, hcur, hprev, hboth⟩
  | some pos =>
    dsimp only
    cases hget : m.jobs[pos]? with
    | none => exact ⟨hidx, hcur, hprev, hboth⟩
    | some j =>
      have hs := set_same_marks_inv m.jobs pos j
        { j with status := JobStatus.suspended } hget rfl rfl rfl
      exact ⟨hs.1 hidx, by rw [hs.2.1]; exact hcur, by rw [hs.2.2.1]; exact hprev,
        hs.2.2.2 hboth⟩

theorem applyOp_inv (m : JobManager) (op : Op) (h : inv m) : inv (applyOp m op) := by
  cases op with
  | add pid command => exact add_job_inv m pid command h
  | remove pid => exact remove_job_inv m pid h
  | fgOp index => exact fg_inv m index h
  | bgOp index => exact bg_inv m index h
  | suspend pid => exact mark_suspended_inv m pid h

theorem applyOps_inv (ops : List Op) :
    ∀ (m : JobManager), inv m → inv (applyOps m ops) := by
  induction ops with
  | nil => intro m h; exact h
  | cons op ops ih =>
    intro m h
    exact ih (applyOp m op) (applyOp_inv m op h)

end ExecJM

/-- C2: starting from the empty job table, after any sequence of
`add_job`, `remove_job`, `fg`, `bg` and `mark_suspended` operations, at
most one job is marked current, at most one job is marked previous, and
no job carries both marks. -/
theorem C2_marks_invariant (ops : List ExecJM.Op) :
    (ExecJM.applyOps ExecJM.JobManager.empty ops).jobs.countP
      (fun j => j.is_current) ≤ 1 ∧
    (ExecJM.applyOps ExecJM.JobManager.empty ops).jobs.countP
      (fun j => j.is_previous) ≤ 1 ∧
    ∀ j ∈ (ExecJM.applyOps ExecJM.JobManager.empty ops).jobs,
      ¬(j.is_current = true ∧ j.is_previous = true) := by
  have h := ExecJM.applyOps_inv ops ExecJM.JobManager.empty
    ⟨by simp [ExecJM.indicesOk, ExecJM.JobManager.empty],
     by simp [ExecJM.marksOk, ExecJM.JobManager.empty]⟩
  exact h.2

/-! ## C1: `remove_job` promotion behaviour (src/shell/job_manager.rs) -/

namespace ShellJM

theorem promoteFirstPrevious_pids (l : List Job) :
    (promoteFirstPrevious l).map (fun j => j.pid) = l.map (fun j => j.pid) := by
  induction l with
  | nil => rfl
  | cons j rest ih =>
    by_cases h : j.is_previous
    · simp [promoteFirstPrevious, h]
    · simp [promoteFirstPrevious, h, ih]

theorem setLastCurrent_pids :
    ∀ (l : List Job), (setLastCurrent l).map (fun j => j.pid) = l.map (fun j => j.pid) := by
  intro l
  induction l using setLastCurrent.induct with
  | case1 => rfl
  | case2 j => simp [setLastCurrent]
  | case3 j j2 hne ih =>
    rw [setLastCurrent]
    · simp only [List.map_cons] at ih ⊢
      rw [ih]
    · exact hne

theorem mem_eraseIdx_of_pid_ne (l : List Job) (pos : Nat) (x p : Job)
    (hget : l[pos]? = some x) (hp : p ∈ l) (hne : p.pid ≠ x.pid) :
    p ∈ l.eraseIdx pos := by
  have hcount := Zakosh.countP_eraseIdx (fun j => j = p) l pos x hget
  have hxp : ¬(x = p) := fun h => hne (by rw [h])
  rw [if_neg (by simpa using hxp)] at hcount
  have hpos : 0 < l.countP (fun j => j = p) :=
    List.countP_pos_iff.mpr ⟨p, hp, by simp⟩
  have hpos1 : 0 < (l.eraseIdx pos).countP (fun j => j = p) := by omega
  obtain ⟨a, ha, hap⟩ := List.countP_pos_iff.mp hpos1
  have : a = p := by simpa using hap
  rw [← this]
  exact ha

theorem promoteFirstPrevious_promotes :
    ∀ (l : List Job) (p : Job), p ∈ l → p.is_previous = true →
      l.countP (fun j => j.is_previous) ≤ 1 →
      ∃ q ∈ promoteFirstPrevious l, q.pid = p.pid ∧ q.is_current = true ∧
        q.is_previous = false := by
  intro l
  induction l with
  | nil => intro p hmem _ _; simp at hmem
  | cons j rest ih =>
    intro p hmem hp hcount
    by_cases hj : j.is_previous = true
    · rcases List.mem_cons.mp hmem with h1 | h2
      · refine ⟨{ j with is_current := true, is_previous := false }, ?_, ?_, rfl, rfl⟩
        · rw [promoteFirstPrevious, if_pos hj]
          exact List.mem_cons_self _ _
        · rw [h1]
      · exfalso
        have h1 : 0 < List.countP Job.is_previous rest :=
          List.countP_pos_iff.mpr ⟨p, h2, hp⟩
        rw [List.countP_cons_of_pos _ _ hj] at hcount
        omega
    · have hpj : ¬(p = j) := fun h => hj (h ▸ hp)
      have h2 : p ∈ rest := by
        rcases List.mem_cons.mp hmem with h1 | h2
        · exact absurd h1 hpj
        · exact h2
      have hcr : rest.countP (fun j => j.is_previous) ≤ 1 := by
        rw [List.countP_cons_of_neg _ _ hj] at hcount
        exact hcount
      obtain ⟨q, hq, hqp, hqc, hqprev⟩ := ih p h2 hp hcr
      refine ⟨q, ?_, hqp, hqc, hqprev⟩
      rw [promoteFirstPrevious, if_neg hj]
      exact List.mem_cons_of_mem j hq

theorem setLastCurrent_getLast :
    ∀ (l : List Job), l ≠ [] →
      ∃ q, (setLastCurrent l).getLast? = some q ∧ q.is_current = true := by
  intro l
  induction l using setLastCurrent.induct with
  | case1 => intro h; exact absurd rfl h
  | case2 j =>
    intro _
    exact ⟨{ j with is_current := true }, by simp [setLastCurrent], rfl⟩
  | case3 j j2 hne ih =>
    intro _
    obtain ⟨q, hq, hqc⟩ := ih (fun h => hne h)
    refine ⟨q, ?_, hqc⟩
    rw [setLastCurrent]
    · cases hsl : setLastCurrent j2 with
      | nil => rw [hsl] at hq; simp at hq
      | cons b bs =>
        rw [hsl] at hq
        rw [List.getLast?_cons_cons]
        exact hq
    · exact hne

end ShellJM

/-- C1 (amended): when the pids in the job table are distinct, at most one
job is marked previous, and some job carries the requested pid,
`remove_job` returns that job and removes it from the table (the table
shrinks by one and no job with that pid remains).  If the removed job was
marked current and the table stays non-empty, then a surviving job that
was marked previous is promoted to current (and loses its previous mark);
if no surviving job was marked previous, the job in the LAST TABLE
POSITION is marked current — not, as the spec says, the job with the
highest remaining index. -/
theorem C1_remove_job (m : ShellJM.JobManager) (gid pid : Int)
    (hnd : (m.jobs.map (fun j => j.pid)).Nodup)
    (hprev : m.jobs.countP (fun j => j.is_previous) ≤ 1)
    (hmem : ∃ j ∈ m.jobs, j.pid = pid) :
    ∃ x, (ShellJM.remove_job m gid pid).1 = some x ∧ x ∈ m.jobs ∧ x.pid = pid ∧
      (ShellJM.remove_job m gid pid).2.jobs.length + 1 = m.jobs.length ∧
      (∀ j ∈ (ShellJM.remove_job m gid pid).2.jobs, j.pid ≠ pid) ∧
      (x.is_current = true → (ShellJM.remove_job m gid pid).2.jobs ≠ [] →
        ((∀ p ∈ m.jobs, p.pid ≠ pid → p.is_previous = true →
            ∃ q ∈ (ShellJM.remove_job m gid pid).2.jobs,
              q.pid = p.pid ∧ q.is_current = true ∧ q.is_previous = false) ∧
         ((∀ p ∈ m.jobs, p.pid = pid ∨ p.is_previous = false) →
            ∃ q, (ShellJM.remove_job m gid pid).2.jobs.getLast? = some q ∧
              q.is_current = true))) := by
  obtain ⟨x0, hx0, hx0pid⟩ := hmem
  have hfind : m.jobs.findIdx? (fun j => j.pid = pid) =
      some (m.jobs.findIdx (fun j => j.pid = pid)) :=
    List.findIdx?_eq_some_of_exists ⟨x0, hx0, by simp [hx0pid]⟩
  set pos := m.jobs.findIdx (fun j => j.pid = pid) with hpos
  obtain ⟨hlt, hpx, hmin⟩ := List.findIdx?_eq_some_iff_getElem.mp hfind
  have hxpid : (m.jobs[pos]).pid = pid := by simpa using hpx
  have hget : m.jobs[pos]? = some m.jobs[pos] := List.getElem?_eq_getElem hlt
  have hxmem : m.jobs[pos] ∈ m.jobs := List.getElem_mem hlt
  have hsub : List.Sublist (m.jobs.eraseIdx pos) m.jobs := List.eraseIdx_sublist _ _
  have hrem : ∀ j ∈ m.jobs.eraseIdx pos, j.pid ≠ pid := by
    have h1 := countP_eraseIdx (fun j => j.pid = pid) m.jobs pos m.jobs[pos] hget
    rw [if_pos (by simp [hxpid])] at h1
    have h2 : m.jobs.countP (fun j => j.pid = pid) ≤ 1 :=
      nodup_countP_le_one (fun j => j.pid) pid m.jobs hnd
    have h0 : (m.jobs.eraseIdx pos).countP (fun j => j.pid = pid) = 0 := by omega
    intro j hj
    have := List.countP_eq_zero.mp h0 j hj
    simpa using this
  have hprev1 : (m.jobs.eraseIdx pos).countP (fun j => j.is_previous) ≤ 1 :=
    le_trans (hsub.countP_le _) hprev
  have hlen : (m.jobs.eraseIdx pos).length + 1 = m.jobs.length := by
    rw [List.length_eraseIdx, if_pos hlt]
    omega
  have hplen : (ShellJM.promoteFirstPrevious (m.jobs.eraseIdx pos)).length =
      (m.jobs.eraseIdx pos).length := by
    have h := congrArg List.length
      (ShellJM.promoteFirstPrevious_pids (m.jobs.eraseIdx pos))
    simpa using h
  have hslen : (ShellJM.setLastCurrent (m.jobs.eraseIdx pos)).length =
      (m.jobs.eraseIdx pos).length := by
    have h := congrArg List.length
      (ShellJM.setLastCurrent_pids (m.jobs.eraseIdx pos))
    simpa using h
  have hrp : ∀ j ∈ ShellJM.promoteFirstPrevious (m.jobs.eraseIdx pos), j.pid ≠ pid := by
    intro j hj
    have h1 : j.pid ∈ (ShellJM.promoteFirstPrevious (m.jobs.eraseIdx pos)).map
        (fun j => j.pid) := List.mem_map_of_mem _ hj
    rw [ShellJM.promoteFirstPrevious_pids] at h1
    obtain ⟨j2, hj2, hj2p⟩ := List.mem_map.mp h1
    rw [← hj2p]
    exact hrem j2 hj2
  have hrs : ∀ j ∈ ShellJM.setLastCurrent (m.jobs.eraseIdx pos), j.pid ≠ pid := by
    intro j hj
    have h1 : j.pid ∈ (ShellJM.setLastCurrent (m.jobs.eraseIdx pos)).map
        (fun j => j.pid) := List.mem_map_of_mem _ hj
    rw [ShellJM.setLastCurrent_pids] at h1
    obtain ⟨j2, hj2, hj2p⟩ := List.mem_map.mp h1
    rw [← hj2p]
    exact hrem j2 hj2
  refine ⟨m.jobs[pos], ?_⟩
  unfold ShellJM.remove_job
  rw [hfind]
  dsimp only
  rw [hget]
  dsimp only
  split
  · rename_i hcond
    split
    · rename_i hany
      refine ⟨rfl, hxmem, hxpid, ?_, hrp, ?_⟩
      · show (ShellJM.promoteFirstPrevious (m.jobs.eraseIdx pos)).length + 1 =
          m.jobs.length
        rw [hplen]
        exact hlen
      · intro hxc hne
        refine ⟨?_, ?_⟩
        · intro p hpmem hppid hpprev
          have hpmem1 : p ∈ m.jobs.eraseIdx pos :=
            ShellJM.mem_eraseIdx_of_pid_ne m.jobs pos m.jobs[pos] p hget hpmem
              (by rw [hxpid]; exact hppid)
          exact ShellJM.promoteFirstPrevious_promotes _ p hpmem1 hpprev hprev1
        · intro hall
          exfalso
          simp only [List.any_eq_true] at hany
          obtain ⟨j, hj, hjp⟩ := hany
          rcases hall j (hsub.subset hj) with h1 | h1
          · exact hrem j hj h1
          · rw [h1] at hjp
            exact Bool.false_ne_true hjp
    · rename_i hany
      refine ⟨rfl, hxmem, hxpid, ?_, hrs, ?_⟩
      · show (ShellJM.setLastCurrent (m.jobs.eraseIdx pos)).length + 1 = m.jobs.length
        rw [hslen]
        exact hlen
      · intro hxc hne
        refine ⟨?_, ?_⟩
        · intro p hpmem hppid hpprev
          exfalso
          apply hany
          simp only [List.any_eq_true]
          exact ⟨p, ShellJM.mem_eraseIdx_of_pid_ne m.jobs pos m.jobs[pos] p hget hpmem
            (by rw [hxpid]; exact hppid), hpprev⟩
        · intro hall
          exact ShellJM.setLastCurrent_getLast _ hcond.2
  · rename_i hcond
    refine ⟨rfl, hxmem, hxpid, hlen, hrem, ?_⟩
    intro hxc hne
    exact absurd ⟨hxc, hne⟩ hcond

/-- A concrete two-job table: job pid 1 is previous, job pid 2 is current. -/
def c1WitnessM : ShellJM.JobManager :=
  ⟨[⟨1, 1, 1, "a", ShellJM.JobStatus.continued, false, false, true⟩,
    ⟨2, 2, 2, "b", ShellJM.JobStatus.continued, false, true, false⟩]⟩

theorem C1_remove_job_witness :
    ∃ x, (ShellJM.remove_job c1WitnessM 0 2).1 = some x ∧ x ∈ c1WitnessM.jobs ∧
      x.pid = 2 ∧
      (ShellJM.remove_job c1WitnessM 0 2).2.jobs.length + 1 = c1WitnessM.jobs.length ∧
      (∀ j ∈ (ShellJM.remove_job c1WitnessM 0 2).2.jobs, j.pid ≠ 2) ∧
      (x.is_current = true → (ShellJM.remove_job c1WitnessM 0 2).2.jobs ≠ [] →
        ((∀ p ∈ c1WitnessM.jobs, p.pid ≠ 2 → p.is_previous = true →
            ∃ q ∈ (ShellJM.remove_job c1WitnessM 0 2).2.jobs,
              q.pid = p.pid ∧ q.is_current = true ∧ q.is_previous = false) ∧
         ((∀ p ∈ c1WitnessM.jobs, p.pid = 2 ∨ p.is_previous = false) →
            ∃ q, (ShellJM.remove_job c1WitnessM 0 2).2.jobs.getLast? = some q ∧
              q.is_current = true))) :=
  C1_remove_job c1WitnessM 0 2 (by decide) (by decide)
    ⟨⟨2, 2, 2, "b", ShellJM.JobStatus.continued, false, true, false⟩, by decide, by decide⟩

/-- The job table reached from the empty table by the call sequence
`add_job 1 1 "a"; add_job 2 2 "b"; remove_job 0 1; add_job 3 3 "c";
add_job 4 4 "d"`.  It holds pid 2 at index 2, pid 3 at index 1 and
pid 4 at index 3, with pid 4 current and nothing previous. -/
def c1State : ShellJM.JobManager :=
  ShellJM.add_job (ShellJM.add_job
    (ShellJM.remove_job (ShellJM.add_job (ShellJM.add_job ⟨[]⟩ 1 1 "a") 2 2 "b") 0 1).2
    3 3 "c") 4 4 "d"

/-- C1 counterexample: in the reachable state `c1State` the current job
(pid 4, index 3) is removed while no job is marked previous; the spec
says the job with the highest remaining index (index 2) then becomes
current, but `remove_job` instead promotes the job in the last table
position (index 1). -/
theorem C1_remove_job_counterexample :
    (∃ x, (ShellJM.remove_job c1State 0 4).1 = some x ∧ x.is_current = true) ∧
    (∀ j ∈ c1State.jobs, j.pid = 4 ∨ j.is_previous = false) ∧
    (ShellJM.remove_job c1State 0 4).2.jobs.map (fun j => (j.index, j.is_current)) =
      [(2, false), (1, true)] := by
  have hstate : c1State =
      ⟨[⟨2, 2, 2, "b", ShellJM.JobStatus.continued, false, false, false⟩,
        ⟨3, 3, 1, "c", ShellJM.JobStatus.continued, false, false, false⟩,
        ⟨4, 4, 3, "d", ShellJM.JobStatus.continued, false, true, false⟩]⟩ := by
    simp [c1State, ShellJM.add_job, ShellJM.remove_job, ShellJM.update_marks,
      ShellJM.find_available_index, ShellJM.findAvailableIndexFrom, ShellJM.Job.new,
      ShellJM.promoteFirstPrevious, ShellJM.setLastCurrent]
  rw [hstate]
  exact ⟨⟨⟨4, 4, 3, "d", ShellJM.JobStatus.continued, false, true, false⟩,
    by decide, rfl⟩, by decide, by decide⟩
